import Mathlib

/-!
Verification development for the interactive package-tree module
(`tach/interactive/packages.py`) and the git change-detection helper
(`tach/filesystem/git_ops.py`).

The Python data model is embedded shallowly:

* `FileNode` mirrors the `FileNode` dataclass (path, directory flag,
  expansion flag, selection flag, owned children).  The Python `parent`
  back-reference is represented positionally: a node is identified by the
  list of child indices leading to it from the root (`Addr`), and its
  parent is the node at the address with the last index removed.  This is
  faithful because in the source every child's `parent` field points at
  the node whose `children` list contains it.
* The filesystem consulted by `os.listdir` / `os.path.isdir` /
  `os.path.isfile` is modelled as a value of type `FSNode`: each call to a
  construction routine receives the filesystem snapshot it reads.
* Python exceptions (`errors.TachError`) become an `Except` result.
-/

namespace Tach

/-- String used by `entry.startswith(".")`: the hidden-file marker. -/
def hiddenMarker : Char := '.'

/-- Path separator used by `os.path.join` (paths here are POSIX style). -/
def pathSep : String := "/"

/-- `os.path.join root entry` for a relative `entry`. -/
def joinPath (base entry : String) : String := base ++ pathSep ++ entry

/-- The line feed separating lines of git subprocess output. -/
def pathSepNl : String := "\n"

/-- The empty string (the default `head` argument of `get_changed_files`). -/
def emptyStr : String := ""

/-- The default `base` argument of `get_changed_files`. -/
def mainStr : String := "main"

/-- `entry.startswith(".")`: true when the first character is the
hidden-file marker. -/
def isHiddenName (s : String) : Bool := s.data.head? == some hiddenMarker

/-- A node of the `FileNode` dataclass: `full_path`, `is_dir`, `expanded`,
`is_package` and the owned `children` list.  The `parent` back-reference
is positional (see module comment). -/
inductive FileNode : Type where
  | mk (full_path : String) (is_dir : Bool) (expanded : Bool)
       (is_package : Bool) (children : List FileNode) : FileNode

def FileNode.full_path : FileNode → String
  | .mk p _ _ _ _ => p

def FileNode.is_dir : FileNode → Bool
  | .mk _ d _ _ _ => d

def FileNode.expanded : FileNode → Bool
  | .mk _ _ e _ _ => e

def FileNode.is_package : FileNode → Bool
  | .mk _ _ _ k _ => k

def FileNode.children : FileNode → List FileNode
  | .mk _ _ _ _ cs => cs

@[simp] theorem FileNode.full_path_mk (p d e k cs) :
    (FileNode.mk p d e k cs).full_path = p := rfl

@[simp] theorem FileNode.is_dir_mk (p d e k cs) :
    (FileNode.mk p d e k cs).is_dir = d := rfl

@[simp] theorem FileNode.expanded_mk (p d e k cs) :
    (FileNode.mk p d e k cs).expanded = e := rfl

@[simp] theorem FileNode.is_package_mk (p d e k cs) :
    (FileNode.mk p d e k cs).is_package = k := rfl

@[simp] theorem FileNode.children_mk (p d e k cs) :
    (FileNode.mk p d e k cs).children = cs := rfl

/-- Rebuild a node with a new `expanded` flag (`node.expanded = b`). -/
def FileNode.setExpanded : FileNode → Bool → FileNode
  | .mk p d _ k cs, e => .mk p d e k cs

/-- Rebuild a node with a new `is_package` flag (`node.is_package = b`). -/
def FileNode.setPackage : FileNode → Bool → FileNode
  | .mk p d e _ cs, k => .mk p d e k cs

/-- Rebuild a node with a new `children` list. -/
def FileNode.setChildren : FileNode → List FileNode → FileNode
  | .mk p d e k _, cs => .mk p d e k cs

@[simp] theorem FileNode.setExpanded_mk (p d e k cs b) :
    (FileNode.mk p d e k cs).setExpanded b = .mk p d b k cs := rfl

@[simp] theorem FileNode.setPackage_mk (p d e k cs b) :
    (FileNode.mk p d e k cs).setPackage b = .mk p d e b cs := rfl

@[simp] theorem FileNode.setChildren_mk (p d e k cs cs2) :
    (FileNode.mk p d e k cs).setChildren cs2 = .mk p d e k cs2 := rfl

/-- `FileNode.empty` property: `len(self.children) == 0`. -/
def FileNode.empty (n : FileNode) : Bool := n.children.isEmpty

/-- `FileNode.visible_children` property: the children when the node is
expanded, otherwise the empty list. -/
def FileNode.visible_children (n : FileNode) : List FileNode :=
  if n.expanded then n.children else []

/-- Order on nodes used by every `sorted(..., key=lambda node: node.full_path)`
call in the source. -/
def pathLe (a b : FileNode) : Prop := a.full_path ≤ b.full_path

instance : DecidableRel pathLe :=
  fun a b => inferInstanceAs (Decidable (a.full_path ≤ b.full_path))

instance : IsTotal FileNode pathLe := ⟨fun a b => le_total a.full_path b.full_path⟩

instance : IsTrans FileNode pathLe := ⟨fun _ _ _ hab hbc => le_trans hab hbc⟩

/-- `sorted(nodes, key=lambda node: node.full_path)`: a stable sort by
path, modelled by insertion sort (Python's sort is likewise stable). -/
def sortByPath (l : List FileNode) : List FileNode := l.insertionSort pathLe

/-- `sorted(nodes, key=..., reverse=True)`: CPython implements a reversed
stable sort by reversing, sorting ascending and reversing again. -/
def sortByPathRev (l : List FileNode) : List FileNode :=
  (sortByPath l.reverse).reverse

theorem sortByPath_perm (l : List FileNode) : (sortByPath l).Perm l :=
  List.perm_insertionSort pathLe l

theorem sortByPath_sorted (l : List FileNode) : List.Sorted pathLe (sortByPath l) :=
  List.sorted_insertionSort pathLe l

theorem sortByPathRev_reverse_perm (l : List FileNode) :
    (sortByPathRev l).reverse.Perm l := by
  unfold sortByPathRev
  rw [List.reverse_reverse]
  exact (sortByPath_perm l.reverse).trans (List.reverse_perm l)

/-- Errors raised as `errors.TachError` in the source, split by the
distinct conditions the messages describe. -/
inductive TachError : Type where
  | notFound (path : String)
  | notADirectory (path : String)
  | consistencyViolation
deriving DecidableEq

/-- `self.parent_sorted_children` property: `None` when there is no
parent, otherwise the parent's visible children sorted by path. -/
def parent_sorted_children (parent : Option FileNode) : Option (List FileNode) :=
  parent.map (fun p => sortByPath p.visible_children)

/-- Position of the node with path `s` in a list of nodes.  This models
`parent_sorted_children.index(self)`: Python locates `self` by equality
(with an identity fast path); whenever the source performs the lookup the
listed siblings have pairwise distinct paths, so locating by `full_path`
coincides with locating the object itself. -/
def idxOfPath (s : String) : List FileNode → Option Nat
  | [] => none
  | c :: cs => if c.full_path == s then some 0 else (idxOfPath s cs).map (· + 1)

/-- `FileNode.prev_sibling` property.  The `ValueError` branch of
`list.index` becomes the `consistencyViolation` error. -/
def prev_sibling (parent : Option FileNode) (self : FileNode) :
    Except TachError (Option FileNode) :=
  match parent_sorted_children parent with
  | none => .ok none
  | some psc =>
    if psc.isEmpty then .ok none
    else
      match idxOfPath self.full_path psc with
      | none => .error .consistencyViolation
      | some i => if i = 0 then .ok none else .ok psc[i-1]?

/-- `FileNode.next_sibling` property. -/
def next_sibling (parent : Option FileNode) (self : FileNode) :
    Except TachError (Option FileNode) :=
  match parent_sorted_children parent with
  | none => .ok none
  | some psc =>
    if psc.isEmpty then .ok none
    else
      match idxOfPath self.full_path psc with
      | none => .error .consistencyViolation
      | some i => if i = psc.length - 1 then .ok none else .ok psc[i+1]?

/-- A snapshot of one filesystem entry as observed through `os.listdir`,
`os.path.isdir` and `os.path.isfile`: its final name component, whether it
is a directory, whether `package.yml` exists directly inside it, whether
listing it succeeds (`PermissionError` otherwise), and its entries in the
order `os.listdir` reports them. -/
inductive FSNode : Type where
  | mk (name : String) (isDir : Bool) (hasPackageFile : Bool)
       (readable : Bool) (entries : List FSNode) : FSNode

def FSNode.name : FSNode → String
  | .mk s _ _ _ _ => s

def FSNode.isDir : FSNode → Bool
  | .mk _ d _ _ _ => d

def FSNode.hasPackageFile : FSNode → Bool
  | .mk _ _ h _ _ => h

def FSNode.readable : FSNode → Bool
  | .mk _ _ _ r _ => r

def FSNode.entries : FSNode → List FSNode
  | .mk _ _ _ _ es => es

@[simp] theorem FSNode.name_mk (s d h r es) : (FSNode.mk s d h r es).name = s := rfl

@[simp] theorem FSNode.isDir_mk (s d h r es) : (FSNode.mk s d h r es).isDir = d := rfl

@[simp] theorem FSNode.hasPackageFile_mk (s d h r es) :
    (FSNode.mk s d h r es).hasPackageFile = h := rfl

@[simp] theorem FSNode.readable_mk (s d h r es) :
    (FSNode.mk s d h r es).readable = r := rfl

@[simp] theorem FSNode.entries_mk (s d h r es) :
    (FSNode.mk s d h r es).entries = es := rfl

/-- `FileNode.build_from_path(path)`: a fresh node for `path`, with
`is_dir = os.path.isdir(path)` and
`is_package = os.path.isfile(os.path.join(path, "package.yml"))`, both
read from the snapshot `fs` of the entry at `path`. -/
def FileNode.build_from_path (fs : FSNode) (path : String) : FileNode :=
  .mk path fs.isDir false fs.hasPackageFile []

/-- Generic helper: `filterMap` over an attached list drops the
membership proofs. -/
theorem attach_filterMap_val {α β : Type} (l : List α) (f : α → Option β) :
    l.attach.filterMap (fun x => f x.val) = l.filterMap f := by
  induction l with
  | nil => rfl
  | cons h t ih =>
    rw [List.attach_cons, List.filterMap_cons, List.filterMap_map, List.filterMap_cons]
    cases f h with
    | none => simp [ih]
    | some b => simp [ih]

/-- `FileTree._build_subtree(root, depth)`, as the children list it
attaches to `root`.  For each non-hidden directory entry a child node is
built, expanded when `depth > 0`, and recursively populated with
`max(depth - 1, 0)`; a `PermissionError` from `os.listdir` (modelled by
`readable = false`) leaves the node childless; a non-directory `root`
gets no children. -/
def subtreeChildren : FSNode → String → Nat → List FileNode
  | .mk _ isd _ rd es, path, depth =>
    if isd then
      if rd then
        es.attach.filterMap (fun e =>
          if isHiddenName e.val.name then none
          else if ¬ e.val.isDir then none
          else
            let entry_path := joinPath path e.val.name
            let child := FileNode.build_from_path e.val entry_path
            let child := if depth > 0 then child.setExpanded true else child
            some (child.setChildren (subtreeChildren e.val entry_path (depth - 1))))
      else []
    else []
termination_by fs _ _ => sizeOf fs
decreasing_by
  have h1 := List.sizeOf_lt_of_mem e.property
  simp
  omega

theorem subtreeChildren_mk (s isd pkg rd : _) (es : List FSNode) (path depth) :
    subtreeChildren (.mk s isd pkg rd es) path depth
      = if isd then
          if rd then
            es.filterMap (fun e =>
              if isHiddenName e.name then none
              else if ¬ e.isDir then none
              else
                let entry_path := joinPath path e.name
                let child := FileNode.build_from_path e entry_path
                let child := if depth > 0 then child.setExpanded true else child
                some (child.setChildren (subtreeChildren e entry_path (depth - 1))))
          else []
        else [] := by
  have h := attach_filterMap_val es (fun e =>
    if isHiddenName e.name then none
    else if ¬ e.isDir then none
    else
      let entry_path := joinPath path e.name
      let child := FileNode.build_from_path e entry_path
      let child := if depth > 0 then child.setExpanded true else child
      some (child.setChildren (subtreeChildren e entry_path (depth - 1))))
  rw [subtreeChildren, h]

/-- Dictionary entries contributed by a node and (recursively) all of its
descendants, keyed by `full_path`, in creation (pre-)order. -/
def selfIndexEntries : FileNode → List (String × FileNode)
  | .mk p d e k cs =>
    (p, .mk p d e k cs) :: (cs.attach.map (fun c => selfIndexEntries c.val)).flatten
termination_by n => sizeOf n
decreasing_by
  have h1 := List.sizeOf_lt_of_mem c.property
  simp
  omega

theorem selfIndexEntries_mk (p d e k cs) :
    selfIndexEntries (.mk p d e k cs)
      = (p, .mk p d e k cs) :: (cs.map selfIndexEntries).flatten := by
  rw [selfIndexEntries]
  rw [List.attach_map_val cs selfIndexEntries]

/-- Lookup in the `FileTree.nodes` dictionary.  Python dictionaries keep
the value of the latest assignment to a key, hence the reverse scan. -/
def dictLookup (nodes : List (String × FileNode)) (path : String) : Option FileNode :=
  (nodes.reverse.find? (fun kv => kv.fst == path)).map (fun kv => kv.snd)

/-- The `FileTree` dataclass: the root node and the flat `nodes`
dictionary, recorded as assignments in insertion order. -/
structure FileTree : Type where
  root : FileNode
  nodes : List (String × FileNode)

/-- `FileTree.build_from_path(path, depth)`.  The source canonicalizes the
root path with `fs.canonical` — a helper outside the sources under
verification, modelled from the spec as an arbitrary absolute-path
resolution function `canonical` — marks the root expanded, stores the
root in `nodes` under the RAW `path` argument, and builds the subtree.
Because `nodes` holds object references, the stored values reflect the
fully built nodes. -/
def FileTree.build_from_path (fs : FSNode) (canonical : String → String)
    (path : String) (depth : Nat) : FileTree :=
  let root0 := FileNode.build_from_path fs (canonical path)
  let root1 := root0.setExpanded true
  let root := root1.setChildren (subtreeChildren fs (canonical path) depth)
  { root := root, nodes := (path, root) :: (root.children.map selfIndexEntries).flatten }

/-- Update, inside the subtree `n`, the outermost node whose `full_path`
is `target` by `f`.  This is the functional rendering of an in-place
mutation of the node object with that path: every holder of a subtree
containing the mutated object observes the updated contents. -/
def updateByPath (target : String) (f : FileNode → FileNode) : FileNode → FileNode
  | .mk p d e k cs =>
    if p = target then f (.mk p d e k cs)
    else .mk p d e k (cs.attach.map (fun c => updateByPath target f c.val))
termination_by n => sizeOf n
decreasing_by
  have h1 := List.sizeOf_lt_of_mem c.property
  simp
  omega

theorem updateByPath_mk (target f p d e k cs) :
    updateByPath target f (.mk p d e k cs)
      = if p = target then f (.mk p d e k cs)
        else .mk p d e k (cs.map (updateByPath target f)) := by
  rw [updateByPath]
  rw [List.attach_map_val cs (updateByPath target f)]

/-- `FileTree.expand_path(path)`.  `fsub` is the filesystem snapshot of
the looked-up node's directory at call time (what
`os.listdir(node.full_path)` would observe).  A missing path raises the
NotFound `TachError`; a non-directory raises the NotADirectory
`TachError`; otherwise `_build_subtree(node, depth=1)` runs on the
looked-up node: it lists and joins entry paths on `node.full_path`,
appends the freshly built children to that node's `children` — an
in-place mutation of the object, rendered here as the update of the tree
node carrying that `full_path` (the positions aliasing the object, unique
under distinct paths) — and adds every new node to the `nodes` dictionary
under its entry path. -/
def FileTree.expand_path (fsub : FSNode) (t : FileTree) (path : String) :
    Except TachError FileTree :=
  match dictLookup t.nodes path with
  | none => .error (.notFound path)
  | some node =>
    if ¬ node.is_dir then .error (.notADirectory path)
    else
      let newChildren := subtreeChildren fsub node.full_path 1
      let grow := fun n => n.setChildren (n.children ++ newChildren)
      .ok { root := updateByPath node.full_path grow t.root,
            nodes := t.nodes.map (fun kv => (kv.fst, updateByPath node.full_path grow kv.snd))
                      ++ (newChildren.map selfIndexEntries).flatten }

/-- The child list a traversal step reads: `node.visible_children` for the
visible-only iterator, `node.children` for the full one. -/
def childSel (visible_only : Bool) (n : FileNode) : List FileNode :=
  if visible_only then n.visible_children else n.children

theorem sizeOf_map_sum_lt_children (p : String) (d e k : Bool) (cs : List FileNode) :
    (cs.map (fun c => sizeOf c)).sum < sizeOf (FileNode.mk p d e k cs) := by
  have h : ∀ l : List FileNode, (l.map (fun c => sizeOf c)).sum < sizeOf l := by
    intro l
    induction l with
    | nil => simp
    | cons x xs ih => simp; omega
  have h2 := h cs
  simp
  omega

theorem childSel_push_sum_lt (v : Bool) (n : FileNode) (rest : List FileNode) :
    (((sortByPathRev (childSel v n)).reverse ++ rest).map (fun m => sizeOf m)).sum
      < ((n :: rest).map (fun m => sizeOf m)).sum := by
  rw [List.map_append, List.sum_append, List.map_cons, List.sum_cons]
  have hperm : ((sortByPathRev (childSel v n)).reverse.map (fun m => sizeOf m)).Perm
      ((childSel v n).map (fun m => sizeOf m)) :=
    (sortByPathRev_reverse_perm (childSel v n)).map (fun m => sizeOf m)
  rw [hperm.sum_eq]
  have hle : ((childSel v n).map (fun m => sizeOf m)).sum
      ≤ ((n.children).map (fun m => sizeOf m)).sum := by
    cases n with
    | mk p d e k cs =>
      cases v with
      | false => simp [childSel]
      | true =>
        simp only [childSel, FileNode.visible_children]
        cases hx : (FileNode.mk p d e k cs).expanded with
        | true => simp
        | false => simp
  have hlt : ((n.children).map (fun m => sizeOf m)).sum < sizeOf n := by
    cases n with
    | mk p d e k cs => simpa using sizeOf_map_sum_lt_children p d e k cs
  omega

/-- `file_tree_iterator`, written on the explicit work list (the source
keeps a `deque` seeded with the tree root).  Each step yields the front
node and `extendleft`s its selected children sorted by path in reverse;
`extendleft` prepends one element at a time, so the block sits reversed —
ascending by path — at the front of the queue. -/
def file_tree_iterator_go (visible_only : Bool) : List FileNode → List FileNode
  | [] => []
  | n :: rest =>
    n :: file_tree_iterator_go visible_only
      ((sortByPathRev (childSel visible_only n)).reverse ++ rest)
termination_by stack => (stack.map (fun m => sizeOf m)).sum
decreasing_by
  exact childSel_push_sum_lt _ _ _

/-- `file_tree_iterator(tree, visible_only)` as the list of yielded nodes. -/
def file_tree_iterator (tree : FileTree) (visible_only : Bool := false) : List FileNode :=
  file_tree_iterator_go visible_only [tree.root]

theorem child_sizeOf_lt {c n : FileNode} (h : c ∈ n.children) : sizeOf c < sizeOf n := by
  have h1 := List.sizeOf_lt_of_mem h
  cases n with
  | mk p d e k cs =>
    simp only [FileNode.children_mk] at h1
    simp
    omega

theorem sorted_childSel_sizeOf_lt (v : Bool) (n c : FileNode)
    (h : c ∈ sortByPath (childSel v n)) : sizeOf c < sizeOf n := by
  have hmem : c ∈ childSel v n := (sortByPath_perm (childSel v n)).mem_iff.mp h
  have hmem2 : c ∈ n.children := by
    cases v with
    | false => exact hmem
    | true =>
      simp only [childSel, FileNode.visible_children] at hmem
      by_cases hx : n.expanded = true
      · rw [if_pos hx] at hmem
        exact hmem
      · rw [if_neg hx] at hmem
        cases hmem
  exact child_sizeOf_lt hmem2

/-- Recursive characterization of the traversal the iterator produces: the
node first, then the traversals of its selected children in ascending
path order. -/
def preorderTraversal (visible_only : Bool) : FileNode → List FileNode
  | n =>
    n :: ((sortByPath (childSel visible_only n)).attach.map
      (fun c => preorderTraversal visible_only c.val)).flatten
termination_by n => sizeOf n
decreasing_by
  exact sorted_childSel_sizeOf_lt _ _ _ c.property

theorem preorderTraversal_unfold (v : Bool) (n : FileNode) :
    preorderTraversal v n
      = n :: ((sortByPath (childSel v n)).map (preorderTraversal v)).flatten := by
  rw [preorderTraversal]
  rw [List.attach_map_val (sortByPath (childSel v n)) (preorderTraversal v)]

/-- The two-valued session exit signal. -/
inductive ExitCode : Type where
  | QUIT_NOSAVE
  | QUIT_SAVE
deriving DecidableEq

/-- The `SelectedPackage` record (the derived `tags` property calls a
module-path helper outside the verified sources and is not modelled). -/
structure SelectedPackage : Type where
  full_path : String
deriving DecidableEq

/-- `InteractivePackageTree.run` after `app.run()` returns: with the save
exit code, collect every marked node of the FULL tree iteration into a
`SelectedPackage`; with the no-save code the function falls through and
returns `None`. -/
def InteractivePackageTree.run (exit_code : ExitCode) (tree : FileTree) :
    Option (List SelectedPackage) :=
  match exit_code with
  | .QUIT_SAVE =>
    some (((file_tree_iterator tree).filter (fun n => n.is_package)).map
      (fun n => ⟨n.full_path⟩))
  | .QUIT_NOSAVE => none

/-! ### Change detection (`tach/filesystem/git_ops.py`) -/

/-- Failures of `Repo(project_root, search_parent_directories=True)`; both
are caught by the source. -/
inductive RepoFailure : Type where
  | invalidGitRepository
  | noSuchPath
deriving DecidableEq

/-- `git.GitCommandError` carrying its message. -/
inductive GitCommandError : Type where
  | mk (msg : String)
deriving DecidableEq

/-- The git subprocess boundary: results of `Repo(...)`,
`repo.git.diff("--name-only", head, base)`, `repo.git.diff("--name-only", base)`
and `repo.git.ls_files("--others", "--exclude-standard")` for the repository
under `project_root`. -/
structure GitOracle : Type where
  repo : Except RepoFailure Unit
  diffHeadBase : String → String → Except GitCommandError String
  diffBase : String → Except GitCommandError String
  lsFilesOthers : Except GitCommandError String

/-- `str.splitlines` for newline-separated subprocess output: split on the
line feed, with no entry for a trailing newline and no entries at all for
the empty string. -/
def splitlines (s : String) : List String :=
  if s.isEmpty then []
  else
    let parts := s.splitOn pathSepNl
    if parts.getLast? == some emptyStr then parts.dropLast else parts

/-- `list(set(xs))`: one entry per distinct element.  CPython's set
iteration order is unspecified; this model keeps the last occurrence
order, and all claims about the result are stated set-wise. -/
def dedupList : List String → List String
  | [] => []
  | x :: xs => if xs.contains x then dedupList xs else x :: dedupList xs

/-- `get_changed_files(project_root, head, base)`.  `Path` wrapping is the
identity on the path strings.  Only the `Repo` constructor and the `diff`
call sit inside `try` blocks; the `ls_files` call does not, so its
`GitCommandError` propagates to the caller (an `.error` result). -/
def get_changed_files (g : GitOracle) (head : String)
    (base : String) : Except GitCommandError (List String) :=
  match g.repo with
  | .error _ => .ok []
  | .ok _ =>
    match (if head ≠ emptyStr then g.diffHeadBase head base else g.diffBase base) with
    | .error _ => .ok []
    | .ok diff =>
      let changed_files := splitlines diff
      if head = emptyStr then
        match g.lsFilesOthers with
        | .error e => .error e
        | .ok untracked => .ok (dedupList (changed_files ++ splitlines untracked))
      else .ok (dedupList changed_files)

/-! ### Cursor movement (`InteractivePackageTree._register_keybindings`)

A node of the session tree is identified by the list of child indices on
the path from the root (`Addr`); the Python `parent` reference of the
node at `a ++ [i]` designates the node at `a`. -/

abbrev Addr := List Nat

/-- The node reached from `n` by following child indices. -/
def getNode : FileNode → Addr → Option FileNode
  | n, [] => some n
  | n, i :: rest =>
    match n.children[i]? with
    | some c => getNode c rest
    | none => none

/-- Replace the element at one position of a list. -/
def modifyIdx {α : Type} (f : α → α) : List α → Nat → List α
  | [], _ => []
  | x :: xs, 0 => f x :: xs
  | x :: xs, i + 1 => x :: modifyIdx f xs i

/-- Apply `f` to the node at address `a` (an in-place mutation of that
node object in the source). -/
def updateAt : FileNode → Addr → (FileNode → FileNode) → FileNode
  | n, [], f => f n
  | n, i :: rest, f => n.setChildren (modifyIdx (fun c => updateAt c rest f) n.children i)

/-- The node at `a` is visible: every strict ancestor is expanded (and the
address is meaningful in the tree). -/
def visibleAddr : FileNode → Addr → Bool
  | _, [] => true
  | n, i :: rest =>
    n.expanded &&
      (match n.children[i]? with
       | some c => visibleAddr c rest
       | none => false)

/-- Index, in the unsorted `children` list, of the child carrying path `s`
(recovering the tree position of a node object the source holds by
reference). -/
def childIdxByPath (p : FileNode) (s : String) : Option Nat := idxOfPath s p.children

/-- Address form of `curr_node.next_sibling`: `none` for the root (no
parent), otherwise the sibling's address next to `a` under the same
parent. -/
def next_sibling_addr (t : FileNode) (a : Addr) : Except TachError (Option Addr) :=
  match a.getLast? with
  | none => .ok none
  | some i =>
    match getNode t a.dropLast with
    | none => .error .consistencyViolation
    | some p =>
      match p.children[i]? with
      | none => .error .consistencyViolation
      | some self =>
        match next_sibling (some p) self with
        | .error e => .error e
        | .ok none => .ok none
        | .ok (some ns) =>
          match childIdxByPath p ns.full_path with
          | none => .error .consistencyViolation
          | some j => .ok (some (a.dropLast ++ [j]))

theorem getElem_child_sizeOf_lt {n c : FileNode} {i : Nat}
    (h : n.children[i]? = some c) : sizeOf c < sizeOf n :=
  child_sizeOf_lt (List.getElem?_mem h)

/-- The `while curr_node.visible_children:` descent of the `up` handler:
repeatedly step into the alphabetically last visible child; the result is
the relative address of the node reached. -/
def descendLastAddr : FileNode → Addr
  | n =>
    match (sortByPath n.visible_children).getLast? with
    | none => []
    | some m =>
      match childIdxByPath n m.full_path with
      | none => []
      | some i =>
        match h : n.children[i]? with
        | some c => i :: descendLastAddr c
        | none => []
termination_by n => sizeOf n
decreasing_by
  exact getElem_child_sizeOf_lt h

/-- The `while next_sibling is None:` loop of the `down` handler: the
closest ancestor-or-self with a next sibling, or `none` when the walk
reaches the root without finding one. -/
def bubble_next (t : FileNode) (a : Addr) : Except TachError (Option Addr) :=
  match next_sibling_addr t a with
  | .error e => .error e
  | .ok (some s) => .ok (some s)
  | .ok none => if h : a = [] then .ok none else bubble_next t a.dropLast
termination_by a.length
decreasing_by
  have h2 : a.length ≠ 0 := fun hz => h (List.eq_nil_of_length_eq_zero hz)
  rw [List.length_dropLast]
  omega

/-- The `up` key handler as a transition on the selected address.  With a
previous sibling, descend to its last visible leaf; otherwise move to the
parent when there is one; at the root, no-op. -/
def upStep (t : FileNode) (a : Addr) : Except TachError Addr :=
  match a.getLast? with
  | none => .ok a
  | some i =>
    match getNode t a.dropLast with
    | none => .error .consistencyViolation
    | some p =>
      match p.children[i]? with
      | none => .error .consistencyViolation
      | some self =>
        match prev_sibling (some p) self with
        | .error e => .error e
        | .ok (some ps) =>
          match childIdxByPath p ps.full_path with
          | none => .error .consistencyViolation
          | some j => .ok (a.dropLast ++ j :: descendLastAddr ps)
        | .ok none => .ok a.dropLast

/-- The `down` key handler as a transition on the selected address: move
to the alphabetically first visible child when one exists; otherwise, at
the root, no-op; otherwise bubble up looking for a next sibling and move
there, or no-op when none exists up to the root. -/
def downStep (t : FileNode) (a : Addr) : Except TachError Addr :=
  match getNode t a with
  | none => .error .consistencyViolation
  | some n =>
    if ¬ n.visible_children.isEmpty then
      match (sortByPath n.visible_children).head? with
      | none => .error .consistencyViolation
      | some c =>
        match childIdxByPath n c.full_path with
        | none => .error .consistencyViolation
        | some i => .ok (a ++ [i])
    else if a.isEmpty then .ok a
    else
      match bubble_next t a with
      | .error e => .error e
      | .ok none => .ok a
      | .ok (some s) => .ok s

/-- The discrete navigation commands delivered to the key handlers. -/
inductive NavCommand : Type where
  | up
  | down
  | expandKey
  | collapseKey
  | toggleSelect
deriving DecidableEq

/-- One key event applied to the session state (tree, selected address):
`up`/`down` move the selection, the right/left keys set or clear
`expanded` on the selected node, enter toggles `is_package` on it. -/
def applyCommand (s : FileNode × Addr) (c : NavCommand) :
    Except TachError (FileNode × Addr) :=
  match c with
  | .up => (upStep s.1 s.2).map (fun a => (s.1, a))
  | .down => (downStep s.1 s.2).map (fun a => (s.1, a))
  | .expandKey => .ok (updateAt s.1 s.2 (fun n => n.setExpanded true), s.2)
  | .collapseKey => .ok (updateAt s.1 s.2 (fun n => n.setExpanded false), s.2)
  | .toggleSelect => .ok (updateAt s.1 s.2 (fun n => n.setPackage (!n.is_package)), s.2)

/-- A whole session: the commands processed one at a time, each completing
before the next is read. -/
def runCommands (s : FileNode × Addr) : List NavCommand → Except TachError (FileNode × Addr)
  | [] => .ok s
  | c :: cs =>
    match applyCommand s c with
    | .error e => .error e
    | .ok s2 => runCommands s2 cs

/-- Well-formedness of a session tree: within every node the children
carry pairwise distinct paths.  Filesystem trees satisfy this because
`os.listdir` reports each entry name once. -/
inductive WF : FileNode → Prop where
  | mk : ∀ (p : String) (d e k : Bool) (cs : List FileNode),
      (cs.map FileNode.full_path).Nodup → (∀ c ∈ cs, WF c) → WF (.mk p d e k cs)

/-! ### Basic lemmas about addresses, well-formedness and sibling lookup -/

@[simp] theorem getNode_nil (t : FileNode) : getNode t [] = some t := rfl

theorem getNode_cons_some {t c : FileNode} {i : Nat} {rest : Addr}
    (hc : t.children[i]? = some c) : getNode t (i :: rest) = getNode c rest := by
  rw [getNode, hc]

theorem getNode_cons_none {t : FileNode} {i : Nat} {rest : Addr}
    (hc : t.children[i]? = none) : getNode t (i :: rest) = none := by
  rw [getNode, hc]

@[simp] theorem visibleAddr_nil (t : FileNode) : visibleAddr t [] = true := rfl

theorem visibleAddr_cons_some {t c : FileNode} {i : Nat} {rest : Addr}
    (hc : t.children[i]? = some c) :
    visibleAddr t (i :: rest) = (t.expanded && visibleAddr c rest) := by
  rw [visibleAddr, hc]

theorem visibleAddr_cons_none {t : FileNode} {i : Nat} {rest : Addr}
    (hc : t.children[i]? = none) :
    visibleAddr t (i :: rest) = (t.expanded && false) := by
  rw [visibleAddr, hc]

theorem getNode_append (a : Addr) :
    ∀ (t : FileNode) (b : Addr),
      getNode t (a ++ b) = (getNode t a).bind (fun n => getNode n b) := by
  induction a with
  | nil => intro t b; simp [getNode]
  | cons i rest ih =>
    intro t b
    rw [List.cons_append]
    rw [getNode, getNode]
    cases t.children[i]? with
    | none => rfl
    | some c => exact ih c b

theorem WF_child {n c : FileNode} (h : WF n) (hc : c ∈ n.children) : WF c := by
  cases h with
  | mk p d e k cs hnd hall => exact hall c hc

theorem WF_nodup {n : FileNode} (h : WF n) : (n.children.map FileNode.full_path).Nodup := by
  cases h with
  | mk p d e k cs hnd hall => exact hnd

theorem WF_getNode {a : Addr} :
    ∀ {t n : FileNode}, WF t → getNode t a = some n → WF n := by
  induction a with
  | nil => intro t n ht h; rw [getNode_nil] at h; cases h; exact ht
  | cons i rest ih =>
    intro t n ht h
    cases hc : t.children[i]? with
    | none => rw [getNode_cons_none hc] at h; cases h
    | some c =>
      rw [getNode_cons_some hc] at h
      exact ih (WF_child ht (List.getElem?_mem hc)) h

theorem visibleAddr_getNode_isSome {a : Addr} :
    ∀ {t : FileNode}, visibleAddr t a = true → (getNode t a).isSome := by
  induction a with
  | nil => intro t _; rw [getNode_nil]; rfl
  | cons i rest ih =>
    intro t h
    cases hc : t.children[i]? with
    | none => rw [visibleAddr_cons_none hc] at h; simp at h
    | some c =>
      rw [visibleAddr_cons_some hc] at h
      simp only [Bool.and_eq_true] at h
      rw [getNode_cons_some hc]
      exact ih h.2

theorem visibleAddr_append {a : Addr} :
    ∀ {t na : FileNode} {b : Addr}, getNode t a = some na →
      (visibleAddr t (a ++ b) = (visibleAddr t a && visibleAddr na b)) := by
  induction a with
  | nil => intro t na b h; rw [getNode_nil] at h; cases h; simp
  | cons i rest ih =>
    intro t na b h
    cases hc : t.children[i]? with
    | none => rw [getNode_cons_none hc] at h; cases h
    | some c =>
      rw [getNode_cons_some hc] at h
      rw [List.cons_append, visibleAddr_cons_some hc, visibleAddr_cons_some hc]
      rw [ih h, Bool.and_assoc]

theorem visibleAddr_isSome_of_append {a b : Addr} :
    ∀ {t : FileNode}, visibleAddr t (a ++ b) = true → (getNode t a).isSome := by
  induction a with
  | nil => intro t _; rw [getNode_nil]; rfl
  | cons i rest ih =>
    intro t h
    rw [List.cons_append] at h
    cases hc : t.children[i]? with
    | none => rw [visibleAddr_cons_none hc] at h; simp at h
    | some c =>
      rw [visibleAddr_cons_some hc] at h
      simp only [Bool.and_eq_true] at h
      rw [getNode_cons_some hc]
      exact ih h.2

theorem visibleAddr_of_append_left {a b : Addr} {t : FileNode}
    (h : visibleAddr t (a ++ b) = true) : visibleAddr t a = true := by
  have hs := visibleAddr_isSome_of_append h
  cases hna : getNode t a with
  | none => rw [hna] at hs; cases hs
  | some na =>
    have h3 := visibleAddr_append (b := b) hna
    rw [h] at h3
    have h2 := h3.symm
    simp only [Bool.and_eq_true] at h2
    exact h2.1

theorem visibleAddr_expanded {a : Addr} {t na : FileNode} {b : Addr} {i : Nat}
    (hv : visibleAddr t (a ++ i :: b) = true)
    (h : getNode t a = some na) : na.expanded = true := by
  have h1 : visibleAddr t (a ++ [i]) = true := by
    have hx : a ++ i :: b = (a ++ [i]) ++ b := by simp
    rw [hx] at hv
    exact visibleAddr_of_append_left hv
  have h2 := visibleAddr_append (b := [i]) h
  rw [h1] at h2
  have h3 := h2.symm
  simp only [Bool.and_eq_true] at h3
  have h4 := h3.2
  cases hc : na.children[i]? with
  | none => rw [visibleAddr_cons_none hc] at h4; simp at h4
  | some c =>
    rw [visibleAddr_cons_some hc] at h4
    simp only [Bool.and_eq_true] at h4
    exact h4.1

/-! Lemmas about `idxOfPath`. -/

theorem idxOfPath_of_mem {c : FileNode} :
    ∀ {l : List FileNode}, c ∈ l →
      ∃ i y, idxOfPath c.full_path l = some i ∧ l[i]? = some y ∧
        y.full_path = c.full_path := by
  intro l
  induction l with
  | nil => intro h; cases h
  | cons x xs ih =>
    intro h
    by_cases hx : x.full_path == c.full_path
    · refine ⟨0, x, ?_, by simp, by simpa using hx⟩
      rw [idxOfPath, if_pos hx]
    · have hmem : c ∈ xs := by
        cases h with
        | head => simp at hx
        | tail _ h2 => exact h2
      obtain ⟨i, y, h1, h2, h3⟩ := ih hmem
      refine ⟨i + 1, y, ?_, by simpa using h2, h3⟩
      rw [idxOfPath, if_neg hx, h1]
      rfl

theorem idxOfPath_get {s : String} :
    ∀ {l : List FileNode} {i : Nat}, idxOfPath s l = some i →
      ∃ y, l[i]? = some y ∧ y.full_path = s := by
  intro l
  induction l with
  | nil => intro i h; rw [idxOfPath] at h; cases h
  | cons x xs ih =>
    intro i h
    rw [idxOfPath] at h
    by_cases hx : x.full_path == s
    · rw [if_pos hx] at h
      cases h
      exact ⟨x, by simp, by simpa using hx⟩
    · rw [if_neg hx] at h
      cases hi : idxOfPath s xs with
      | none => rw [hi] at h; cases h
      | some j =>
        rw [hi] at h
        cases h
        obtain ⟨y, h2, h3⟩ := ih hi
        exact ⟨y, by simpa using h2, h3⟩

theorem idxOfPath_of_getElem {c : FileNode} :
    ∀ {l : List FileNode} {i : Nat}, (l.map FileNode.full_path).Nodup →
      l[i]? = some c → idxOfPath c.full_path l = some i := by
  intro l
  induction l with
  | nil => intro i _ h; cases h
  | cons x xs ih =>
    intro i hnd h
    rw [List.map_cons, List.nodup_cons] at hnd
    cases i with
    | zero =>
      rw [List.getElem?_cons_zero] at h
      cases h
      rw [idxOfPath, if_pos (by simp)]
    | succ j =>
      rw [List.getElem?_cons_succ] at h
      have hmem : c ∈ xs := List.getElem?_mem h
      have hne : ¬ (x.full_path == c.full_path) := by
        simp only [beq_iff_eq]
        intro hcontra
        exact hnd.1 (hcontra ▸ List.mem_map_of_mem FileNode.full_path hmem)
      rw [idxOfPath, if_neg hne, ih hnd.2 h]
      rfl

theorem nodup_path_inj {l : List FileNode} (hnd : (l.map FileNode.full_path).Nodup)
    {a b : FileNode} (ha : a ∈ l) (hb : b ∈ l)
    (hp : a.full_path = b.full_path) : a = b :=
  List.inj_on_of_nodup_map hnd ha hb hp

theorem visible_children_of_expanded {n : FileNode} (h : n.expanded = true) :
    n.visible_children = n.children := by
  rw [FileNode.visible_children, if_pos h]

theorem visible_children_of_not_expanded {n : FileNode} (h : n.expanded = false) :
    n.visible_children = [] := by
  rw [FileNode.visible_children, if_neg (by simp [h])]

theorem sortByPath_nodup {l : List FileNode}
    (h : (l.map FileNode.full_path).Nodup) :
    ((sortByPath l).map FileNode.full_path).Nodup :=
  (((sortByPath_perm l).map FileNode.full_path).nodup_iff).mpr h

theorem mem_sortByPath {c : FileNode} {l : List FileNode} :
    c ∈ sortByPath l ↔ c ∈ l :=
  (sortByPath_perm l).mem_iff

@[simp] theorem sortByPath_nil : sortByPath [] = [] := rfl

theorem parent_sorted_children_some (p : FileNode) :
    parent_sorted_children (some p) = some (sortByPath p.visible_children) := rfl

/-- With an expanded well-formed parent, `next_sibling` returns the entry
after `self` in the sorted visible children (and `none` past the end). -/
theorem next_sibling_eq {p self : FileNode} (hexp : p.expanded = true)
    (hnd : (p.children.map FileNode.full_path).Nodup) {q : Nat}
    (hq : (sortByPath p.children)[q]? = some self) :
    next_sibling (some p) self = .ok ((sortByPath p.children)[q+1]?) := by
  have hvc : p.visible_children = p.children := visible_children_of_expanded hexp
  have hmem : self ∈ sortByPath p.children := List.getElem?_mem hq
  have hne : ¬ (sortByPath p.children).isEmpty := by
    cases hl : sortByPath p.children with
    | nil => rw [hl] at hmem; cases hmem
    | cons x xs => simp
  have hidx : idxOfPath self.full_path (sortByPath p.children) = some q :=
    idxOfPath_of_getElem (sortByPath_nodup hnd) hq
  rw [next_sibling, parent_sorted_children_some, hvc]
  simp only [hne, if_neg, hidx]
  by_cases hlast : q = (sortByPath p.children).length - 1
  · have hlen : 0 < (sortByPath p.children).length := by
      cases hl : sortByPath p.children with
      | nil => rw [hl] at hmem; cases hmem
      | cons x xs => simp
    have hnone : (sortByPath p.children)[q+1]? = none := by
      apply List.getElem?_eq_none
      omega
    rw [if_pos hlast, hnone]
    simp
  · rw [if_neg hlast]
    simp

/-- With an expanded well-formed parent, `prev_sibling` returns the entry
before `self` in the sorted visible children (and `none` at the front). -/
theorem prev_sibling_eq {p self : FileNode} (hexp : p.expanded = true)
    (hnd : (p.children.map FileNode.full_path).Nodup) {q : Nat}
    (hq : (sortByPath p.children)[q]? = some self) :
    prev_sibling (some p) self
      = .ok (if q = 0 then none else (sortByPath p.children)[q-1]?) := by
  have hvc : p.visible_children = p.children := visible_children_of_expanded hexp
  have hmem : self ∈ sortByPath p.children := List.getElem?_mem hq
  have hne : ¬ (sortByPath p.children).isEmpty := by
    cases hl : sortByPath p.children with
    | nil => rw [hl] at hmem; cases hmem
    | cons x xs => simp
  have hidx : idxOfPath self.full_path (sortByPath p.children) = some q :=
    idxOfPath_of_getElem (sortByPath_nodup hnd) hq
  rw [prev_sibling, parent_sorted_children_some, hvc]
  simp only [hne, if_neg, hidx]
  by_cases h0 : q = 0
  · rw [if_pos h0, if_pos h0]
    simp
  · rw [if_neg h0, if_neg h0]
    simp

theorem next_sibling_unexpanded {p self : FileNode} (h : p.expanded = false) :
    next_sibling (some p) self = .ok none := by
  have hvc := visible_children_of_not_expanded h
  rw [next_sibling, parent_sorted_children_some, hvc]
  rfl

theorem prev_sibling_unexpanded {p self : FileNode} (h : p.expanded = false) :
    prev_sibling (some p) self = .ok none := by
  have hvc := visible_children_of_not_expanded h
  rw [prev_sibling, parent_sorted_children_some, hvc]
  rfl

/-! ### Address-level sibling lookup and the descend-to-last walk -/

theorem childIdxByPath_of_getElem {p c : FileNode} {i : Nat}
    (hnd : (p.children.map FileNode.full_path).Nodup)
    (h : p.children[i]? = some c) : childIdxByPath p c.full_path = some i :=
  idxOfPath_of_getElem hnd h

theorem childIdxByPath_get {p : FileNode} {s : String} {i : Nat}
    (h : childIdxByPath p s = some i) :
    ∃ y, p.children[i]? = some y ∧ y.full_path = s :=
  idxOfPath_get h

theorem getNode_concat_children {t p : FileNode} {b : Addr} {i : Nat}
    (hp : getNode t b = some p) :
    getNode t (b ++ [i]) = p.children[i]? := by
  rw [getNode_append, hp]
  show getNode p [i] = p.children[i]?
  cases hc : p.children[i]? with
  | none => rw [getNode_cons_none hc]
  | some c => rw [getNode_cons_some hc, getNode_nil]

@[simp] theorem next_sibling_addr_nil (t : FileNode) :
    next_sibling_addr t [] = .ok none := rfl

theorem next_sibling_addr_concat {t p self : FileNode} {b : Addr} {i : Nat}
    (hp : getNode t b = some p) (hself : p.children[i]? = some self) :
    next_sibling_addr t (b ++ [i])
      = match next_sibling (some p) self with
        | .error e => .error e
        | .ok none => .ok none
        | .ok (some ns) =>
          match childIdxByPath p ns.full_path with
          | none => .error .consistencyViolation
          | some j => .ok (some (b ++ [j])) := by
  unfold next_sibling_addr
  simp only [List.getLast?_concat, List.dropLast_concat, hp, hself]

theorem upStep_concat {t p self : FileNode} {b : Addr} {i : Nat}
    (hp : getNode t b = some p) (hself : p.children[i]? = some self) :
    upStep t (b ++ [i])
      = match prev_sibling (some p) self with
        | .error e => .error e
        | .ok (some ps) =>
          match childIdxByPath p ps.full_path with
          | none => .error .consistencyViolation
          | some j => .ok (b ++ j :: descendLastAddr ps)
        | .ok none => .ok b := by
  unfold upStep
  simp only [List.getLast?_concat, List.dropLast_concat, hp, hself]

@[simp] theorem upStep_nil (t : FileNode) : upStep t [] = .ok [] := rfl

theorem descendLast_of_no_visible {n : FileNode} (h : n.visible_children = []) :
    descendLastAddr n = [] := by
  rw [descendLastAddr]
  simp only [h, sortByPath_nil]
  rfl

theorem descendLast_step {n m : FileNode} {i : Nat}
    (hnd : (n.children.map FileNode.full_path).Nodup) (hexp : n.expanded = true)
    (hlast : (sortByPath n.children).getLast? = some m)
    (hi : n.children[i]? = some m) :
    descendLastAddr n = i :: descendLastAddr m := by
  rw [descendLastAddr]
  have hvc := visible_children_of_expanded hexp
  have hidx : childIdxByPath n m.full_path = some i :=
    childIdxByPath_of_getElem hnd hi
  simp only [hvc, hlast, hidx]
  split
  · rename_i c hcc
    rw [hi] at hcc
    cases hcc
    rfl
  · rename_i hcc
    rw [hi] at hcc
    cases hcc

theorem sortByPath_ne_nil {l : List FileNode} (h : l ≠ []) : sortByPath l ≠ [] := by
  intro hx
  have hperm := sortByPath_perm l
  rw [hx] at hperm
  exact h hperm.symm.eq_nil

theorem getLast?_some_of_ne_nil {l : List FileNode} (h : l ≠ []) :
    ∃ m, l.getLast? = some m ∧ l[l.length - 1]? = some m := by
  have hlen : 0 < l.length := List.length_pos.mpr h
  have hlt : l.length - 1 < l.length := by omega
  refine ⟨l[l.length - 1], ?_, ?_⟩
  · rw [List.getLast?_eq_getElem?]
    exact List.getElem?_eq_getElem hlt
  · exact List.getElem?_eq_getElem hlt

theorem sizeOf_pos (n : FileNode) : 0 < sizeOf n := by
  cases n with
  | mk p d e k cs => simp

theorem descendLast_spec_aux : ∀ (sz : Nat) (n : FileNode), sizeOf n ≤ sz → WF n →
    visibleAddr n (descendLastAddr n) = true ∧
      ∃ m, getNode n (descendLastAddr n) = some m ∧ m.visible_children = [] := by
  intro sz
  induction sz with
  | zero =>
    intro n hle _
    have := sizeOf_pos n
    omega
  | succ k ih =>
  intro n hle hwf
  by_cases hvc : n.visible_children = []
  · rw [descendLast_of_no_visible hvc]
    exact ⟨rfl, n, rfl, hvc⟩
  · have hexp : n.expanded = true := by
      by_contra hx
      exact hvc (visible_children_of_not_expanded (by simpa using hx))
    have hvcc : n.visible_children = n.children := visible_children_of_expanded hexp
    rw [hvcc] at hvc
    have hsne : sortByPath n.children ≠ [] := sortByPath_ne_nil hvc
    obtain ⟨m, hlast, hgetm⟩ := getLast?_some_of_ne_nil hsne
    have hmmem : m ∈ n.children := mem_sortByPath.mp (List.getElem?_mem hgetm)
    obtain ⟨i, hi⟩ := List.mem_iff_getElem?.mp hmmem
    have hstep := descendLast_step (WF_nodup hwf) hexp hlast hi
    have hwm : WF m := WF_child hwf hmmem
    have hszm : sizeOf m ≤ k := by
      have := child_sizeOf_lt hmmem
      omega
    have hih := ih m hszm hwm
    rw [hstep]
    constructor
    · rw [visibleAddr_cons_some hi, hexp, hih.1]
      rfl
    · obtain ⟨mf, hmf1, hmf2⟩ := hih.2
      exact ⟨mf, by rw [getNode_cons_some hi]; exact hmf1, hmf2⟩

/-- Descending to the alphabetically last visible child repeatedly lands
on a visible node with no visible children. -/
theorem descendLast_spec {n : FileNode} (hwf : WF n) :
    visibleAddr n (descendLastAddr n) = true ∧
      ∃ m, getNode n (descendLastAddr n) = some m ∧ m.visible_children = [] :=
  descendLast_spec_aux (sizeOf n) n (le_refl _) hwf

/-! ### The bubble-up walk of the `down` handler -/

theorem next_sibling_addr_last {t p self : FileNode} {b : Addr} {i q : Nat}
    (hnd : (p.children.map FileNode.full_path).Nodup)
    (hexp : p.expanded = true)
    (hp : getNode t b = some p) (hself : p.children[i]? = some self)
    (hq : (sortByPath p.children)[q]? = some self)
    (hnone : (sortByPath p.children)[q+1]? = none) :
    next_sibling_addr t (b ++ [i]) = .ok none := by
  rw [next_sibling_addr_concat hp hself, next_sibling_eq hexp hnd hq, hnone]

theorem next_sibling_addr_mid {t p self ns : FileNode} {b : Addr} {i q : Nat}
    (hnd : (p.children.map FileNode.full_path).Nodup)
    (hexp : p.expanded = true)
    (hp : getNode t b = some p) (hself : p.children[i]? = some self)
    (hq : (sortByPath p.children)[q]? = some self)
    (hns : (sortByPath p.children)[q+1]? = some ns) :
    ∃ j, p.children[j]? = some ns ∧
      next_sibling_addr t (b ++ [i]) = .ok (some (b ++ [j])) := by
  have hnsmem : ns ∈ p.children := mem_sortByPath.mp (List.getElem?_mem hns)
  obtain ⟨j, hj⟩ := List.mem_iff_getElem?.mp hnsmem
  have hidx := childIdxByPath_of_getElem hnd hj
  refine ⟨j, hj, ?_⟩
  rw [next_sibling_addr_concat hp hself, next_sibling_eq hexp hnd hq, hns]
  simp only [hidx]

theorem bubble_next_spec : ∀ (b : Addr) (t : FileNode), WF t →
    ∀ (r : Addr) (nb : FileNode),
    visibleAddr t (b ++ r) = true → getNode t b = some nb →
    descendLastAddr nb = r →
    bubble_next t b = .ok none ∨
      ∃ s, bubble_next t b = .ok (some s) ∧ visibleAddr t s = true ∧
        upStep t s = .ok (b ++ r) := by
  intro b
  induction b using List.reverseRecOn with
  | nil =>
    intro t hwf r nb hv hnb hd
    left
    rw [bubble_next]
    simp only [next_sibling_addr_nil]
    simp
  | append_singleton b' i ih =>
    intro t hwf r nb hv hnb hd
    have hv' : visibleAddr t (b' ++ (i :: r)) = true := by
      have hx : (b' ++ [i]) ++ r = b' ++ (i :: r) := by simp
      rw [hx] at hv
      exact hv
    have hps := visibleAddr_isSome_of_append (a := b') (b := i :: r) hv'
    cases hpo : getNode t b' with
    | none => rw [hpo] at hps; cases hps
    | some p =>
    have hchild : p.children[i]? = some nb := by
      have hgc := getNode_concat_children (i := i) hpo
      rw [hgc] at hnb
      exact hnb
    have hexp : p.expanded = true := visibleAddr_expanded (b := r) (i := i) hv' hpo
    have hwfp : WF p := WF_getNode hwf hpo
    have hnd := WF_nodup hwfp
    have hmem : nb ∈ p.children := List.getElem?_mem hchild
    have hmemL : nb ∈ sortByPath p.children := mem_sortByPath.mpr hmem
    obtain ⟨q, hq⟩ := List.mem_iff_getElem?.mp hmemL
    cases hq1 : (sortByPath p.children)[q+1]? with
    | some ns =>
      obtain ⟨j, hj, haddr⟩ := next_sibling_addr_mid hnd hexp hpo hchild hq hq1
      right
      refine ⟨b' ++ [j], ?_, ?_, ?_⟩
      · rw [bubble_next]
        simp only [haddr]
      · have hvb' : visibleAddr t b' = true := visibleAddr_of_append_left (b := i :: r) hv'
        rw [visibleAddr_append (b := [j]) hpo, hvb']
        rw [visibleAddr_cons_some hj]
        simp [hexp]
      · rw [upStep_concat hpo hj]
        rw [prev_sibling_eq hexp hnd (q := q+1) hq1]
        have hne0 : ¬ (q + 1 = 0) := by omega
        rw [if_neg hne0]
        simp only [Nat.add_sub_cancel]
        rw [hq]
        have hidxc : childIdxByPath p nb.full_path = some i :=
          childIdxByPath_of_getElem hnd hchild
        simp only [hidxc, hd]
        simp
    | none =>
      have haddr := next_sibling_addr_last hnd hexp hpo hchild hq hq1
      have hbeq : bubble_next t (b' ++ [i]) = bubble_next t b' := by
        rw [bubble_next]
        simp only [haddr]
        rw [dif_neg (by simp)]
        rw [List.dropLast_concat]
      have hqlast : q = (sortByPath p.children).length - 1 := by
        have hqlt := (List.getElem?_eq_some_iff.mp hq).1
        have hlen : (sortByPath p.children).length ≤ q + 1 := by
          by_contra hcon
          push_neg at hcon
          have hsome := List.getElem?_eq_getElem hcon
          rw [hq1] at hsome
          cases hsome
        omega
      have hlast : (sortByPath p.children).getLast? = some nb := by
        rw [List.getLast?_eq_getElem?, ← hqlast]
        exact hq
      have hdp : descendLastAddr p = i :: r := by
        rw [descendLast_step hnd hexp hlast hchild, hd]
      have hres := ih t hwf (i :: r) p hv' hpo hdp
      rcases hres with hnone2 | ⟨s, hs1, hs2, hs3⟩
      · left
        rw [hbeq]
        exact hnone2
      · right
        refine ⟨s, by rw [hbeq]; exact hs1, hs2, ?_⟩
        rw [hs3]
        simp

/-! ### Behaviour of the `up` and `down` handlers under the invariants -/

theorem downStep_eq_child {t n c : FileNode} {a : Addr} {i : Nat}
    (hn : getNode t a = some n) (hvc : ¬ n.visible_children.isEmpty = true)
    (hhead : (sortByPath n.visible_children).head? = some c)
    (hidx : childIdxByPath n c.full_path = some i) :
    downStep t a = .ok (a ++ [i]) := by
  unfold downStep
  simp only [hn]
  rw [if_pos hvc]
  simp only [hhead, hidx]

theorem downStep_eq_noop {t n : FileNode} {a : Addr}
    (hn : getNode t a = some n) (hvc : n.visible_children = []) (ha : a = []) :
    downStep t a = .ok a := by
  unfold downStep
  simp only [hn]
  rw [if_neg (by simp [hvc])]
  rw [if_pos (by simp [ha])]

theorem downStep_eq_bubble {t n : FileNode} {a : Addr}
    (hn : getNode t a = some n) (hvc : n.visible_children = []) (ha : a ≠ []) :
    downStep t a
      = match bubble_next t a with
        | .error e => .error e
        | .ok none => .ok a
        | .ok (some s) => .ok s := by
  unfold downStep
  simp only [hn]
  rw [if_neg (by simp [hvc])]
  rw [if_neg (by simpa using ha)]

/-- Moving up from any visible node of a well-formed tree succeeds and
lands on a visible node. -/
theorem upStep_ok {t : FileNode} {a : Addr} (hwf : WF t)
    (hv : visibleAddr t a = true) :
    ∃ a2, upStep t a = .ok a2 ∧ visibleAddr t a2 = true := by
  rcases List.eq_nil_or_concat a with ha | ⟨b, i, ha⟩
  · subst ha
    exact ⟨[], rfl, rfl⟩
  · rw [List.concat_eq_append] at ha
    subst ha
    have hps := visibleAddr_isSome_of_append (a := b) (b := [i]) hv
    cases hpo : getNode t b with
    | none => rw [hpo] at hps; cases hps
    | some p =>
    have hvb : visibleAddr t b = true := visibleAddr_of_append_left hv
    have hvapp := visibleAddr_append (b := [i]) hpo
    rw [hv] at hvapp
    have hvp : visibleAddr p [i] = true := by
      have := hvapp.symm
      simp only [Bool.and_eq_true] at this
      exact this.2
    have hchild : (p.children[i]?).isSome := by
      cases hc : p.children[i]? with
      | none => rw [visibleAddr_cons_none hc] at hvp; simp at hvp
      | some c => rfl
    cases hc : p.children[i]? with
    | none => rw [hc] at hchild; cases hchild
    | some self =>
    have hexp : p.expanded = true := by
      rw [visibleAddr_cons_some hc] at hvp
      simp only [Bool.and_eq_true] at hvp
      exact hvp.1
    have hwfp : WF p := WF_getNode hwf hpo
    have hnd := WF_nodup hwfp
    have hmem : self ∈ p.children := List.getElem?_mem hc
    obtain ⟨q, hq⟩ := List.mem_iff_getElem?.mp (mem_sortByPath.mpr hmem)
    rw [upStep_concat hpo hc]
    rw [prev_sibling_eq hexp hnd hq]
    by_cases hq0 : q = 0
    · rw [if_pos hq0]
      exact ⟨b, rfl, hvb⟩
    · rw [if_neg hq0]
      have hqlt := (List.getElem?_eq_some_iff.mp hq).1
      have hq1lt : q - 1 < (sortByPath p.children).length := by omega
      have hps' : (sortByPath p.children)[q-1]? = some (sortByPath p.children)[q-1] :=
        List.getElem?_eq_getElem hq1lt
      rw [hps']
      set ps := (sortByPath p.children)[q-1] with hpsdef
      have hpsmem : ps ∈ p.children := mem_sortByPath.mp (List.getElem_mem hq1lt)
      obtain ⟨j, hj⟩ := List.mem_iff_getElem?.mp hpsmem
      have hidx := childIdxByPath_of_getElem hnd hj
      simp only [hidx]
      refine ⟨b ++ j :: descendLastAddr ps, rfl, ?_⟩
      have hwfps : WF ps := WF_child hwfp hpsmem
      have hdspec := descendLast_spec hwfps
      have hx : b ++ j :: descendLastAddr ps = b ++ (j :: descendLastAddr ps) := rfl
      rw [hx, visibleAddr_append (b := j :: descendLastAddr ps) hpo, hvb]
      rw [visibleAddr_cons_some hj, hexp, hdspec.1]
      rfl

/-- Move-down from any visible node of a well-formed tree succeeds, lands
on a visible node, and is undone by move-up unless it was a no-op. -/
theorem downStep_roundtrip {t : FileNode} {a : Addr} (hwf : WF t)
    (hv : visibleAddr t a = true) :
    ∃ a2, downStep t a = .ok a2 ∧ visibleAddr t a2 = true ∧
      (a2 = a ∨ upStep t a2 = .ok a) := by
  have hs := visibleAddr_getNode_isSome hv
  cases hn : getNode t a with
  | none => rw [hn] at hs; cases hs
  | some n =>
  by_cases hvc : n.visible_children = []
  · by_cases ha : a = []
    · exact ⟨a, downStep_eq_noop hn hvc ha, hv, Or.inl rfl⟩
    · have hd : descendLastAddr n = [] := descendLast_of_no_visible hvc
      have hres := bubble_next_spec a t hwf [] n (by simpa using hv) hn hd
      rw [downStep_eq_bubble hn hvc ha]
      rcases hres with hb | ⟨s, hb, hsv, hsup⟩
      · rw [hb]
        exact ⟨a, rfl, hv, Or.inl rfl⟩
      · rw [hb]
        refine ⟨s, rfl, hsv, Or.inr ?_⟩
        rw [hsup]
        simp
  · have hexp : n.expanded = true := by
      by_contra hx
      exact hvc (visible_children_of_not_expanded (by simpa using hx))
    have hvcc : n.visible_children = n.children := visible_children_of_expanded hexp
    have hwfn : WF n := WF_getNode hwf hn
    have hnd := WF_nodup hwfn
    have hLne : sortByPath n.children ≠ [] := by
      apply sortByPath_ne_nil
      rw [← hvcc]
      exact hvc
    cases hL : sortByPath n.children with
    | nil => exact absurd hL hLne
    | cons c rest =>
    have hhead : (sortByPath n.visible_children).head? = some c := by
      rw [hvcc, hL]
      rfl
    have hq0 : (sortByPath n.children)[0]? = some c := by
      rw [hL]
      simp
    have hcmem : c ∈ n.children := mem_sortByPath.mp (by rw [hL]; simp)
    obtain ⟨i, hi⟩ := List.mem_iff_getElem?.mp hcmem
    have hidx := childIdxByPath_of_getElem hnd hi
    refine ⟨a ++ [i], downStep_eq_child hn (by simp [hvc]) hhead hidx, ?_, Or.inr ?_⟩
    · rw [visibleAddr_append (b := [i]) hn, hv]
      rw [visibleAddr_cons_some hi, hexp]
      rfl
    · rw [upStep_concat hn hi]
      rw [prev_sibling_eq hexp hnd hq0]
      rw [if_pos rfl]

/-! ### Flag updates preserve well-formedness and visibility -/

@[simp] theorem FileNode.full_path_setExpanded (n : FileNode) (b : Bool) :
    (n.setExpanded b).full_path = n.full_path := by cases n; rfl

@[simp] theorem FileNode.children_setExpanded (n : FileNode) (b : Bool) :
    (n.setExpanded b).children = n.children := by cases n; rfl

@[simp] theorem FileNode.full_path_setPackage (n : FileNode) (b : Bool) :
    (n.setPackage b).full_path = n.full_path := by cases n; rfl

@[simp] theorem FileNode.children_setPackage (n : FileNode) (b : Bool) :
    (n.setPackage b).children = n.children := by cases n; rfl

@[simp] theorem FileNode.full_path_setChildren (n : FileNode) (cs : List FileNode) :
    (n.setChildren cs).full_path = n.full_path := by cases n; rfl

@[simp] theorem FileNode.expanded_setChildren (n : FileNode) (cs : List FileNode) :
    (n.setChildren cs).expanded = n.expanded := by cases n; rfl

@[simp] theorem FileNode.is_dir_setChildren (n : FileNode) (cs : List FileNode) :
    (n.setChildren cs).is_dir = n.is_dir := by cases n; rfl

@[simp] theorem FileNode.is_package_setChildren (n : FileNode) (cs : List FileNode) :
    (n.setChildren cs).is_package = n.is_package := by cases n; rfl

@[simp] theorem FileNode.children_setChildren (n : FileNode) (cs : List FileNode) :
    (n.setChildren cs).children = cs := by cases n; rfl

@[simp] theorem updateAt_nil (t : FileNode) (f : FileNode → FileNode) :
    updateAt t [] f = f t := rfl

theorem updateAt_cons (t : FileNode) (i : Nat) (rest : Addr) (f : FileNode → FileNode) :
    updateAt t (i :: rest) f
      = t.setChildren (modifyIdx (fun c => updateAt c rest f) t.children i) := rfl

theorem modifyIdx_getElem? {α : Type} (f : α → α) :
    ∀ (l : List α) (i j : Nat),
      (modifyIdx f l i)[j]? = if j = i then (l[j]?).map f else l[j]? := by
  intro l
  induction l with
  | nil => intro i j; simp [modifyIdx]
  | cons x xs ih =>
    intro i j
    cases i with
    | zero =>
      cases j with
      | zero => simp [modifyIdx]
      | succ j2 => simp [modifyIdx]
    | succ i2 =>
      cases j with
      | zero => simp [modifyIdx]
      | succ j2 =>
        simp only [modifyIdx, List.getElem?_cons_succ, ih i2 j2]
        by_cases hj : j2 = i2
        · rw [if_pos hj, if_pos (by omega)]
        · rw [if_neg hj, if_neg (by omega)]

theorem modifyIdx_map {α β : Type} (g : α → α) (h : α → β)
    (hh : ∀ x, h (g x) = h x) :
    ∀ (l : List α) (i : Nat), (modifyIdx g l i).map h = l.map h := by
  intro l
  induction l with
  | nil => intro i; simp [modifyIdx]
  | cons x xs ih =>
    intro i
    cases i with
    | zero => simp [modifyIdx, hh]
    | succ i2 => simp [modifyIdx, ih i2]

theorem mem_modifyIdx {α : Type} {g : α → α} :
    ∀ {l : List α} {i : Nat} {y : α}, y ∈ modifyIdx g l i →
      y ∈ l ∨ ∃ x, x ∈ l ∧ y = g x := by
  intro l
  induction l with
  | nil => intro i y h; simp [modifyIdx] at h
  | cons x xs ih =>
    intro i y h
    cases i with
    | zero =>
      rw [modifyIdx] at h
      cases h with
      | head => exact Or.inr ⟨x, List.mem_cons_self x xs, rfl⟩
      | tail _ h2 => exact Or.inl (List.mem_cons_of_mem x h2)
    | succ i2 =>
      rw [modifyIdx] at h
      cases h with
      | head => exact Or.inl (List.mem_cons_self x xs)
      | tail _ h2 =>
        rcases ih h2 with hl | ⟨z, hz1, hz2⟩
        · exact Or.inl (List.mem_cons_of_mem x hl)
        · exact Or.inr ⟨z, List.mem_cons_of_mem x hz1, hz2⟩

theorem updateAt_full_path {f : FileNode → FileNode}
    (hfp : ∀ m, (f m).full_path = m.full_path) :
    ∀ (a : Addr) (n : FileNode), (updateAt n a f).full_path = n.full_path := by
  intro a
  induction a with
  | nil => intro n; rw [updateAt_nil, hfp]
  | cons i rest _ => intro n; rw [updateAt_cons, FileNode.full_path_setChildren]

theorem updateAt_WF {f : FileNode → FileNode}
    (hfc : ∀ m, (f m).children = m.children)
    (hfp : ∀ m, (f m).full_path = m.full_path) :
    ∀ (a : Addr) (n : FileNode), WF n → WF (updateAt n a f) := by
  intro a
  induction a with
  | nil =>
    intro n hn
    rw [updateAt_nil]
    have hc := hfc n
    have hwfn := hn
    cases hfn : f n with
    | mk p2 d2 e2 k2 cs2 =>
      rw [hfn] at hc
      simp only [FileNode.children_mk] at hc
      refine WF.mk p2 d2 e2 k2 cs2 ?_ ?_
      · rw [hc]; exact WF_nodup hwfn
      · intro c hcmem
        rw [hc] at hcmem
        exact WF_child hwfn hcmem
  | cons i rest ih =>
    intro n hn
    rw [updateAt_cons]
    cases n with
    | mk p d e k cs =>
      simp only [FileNode.children_mk, FileNode.setChildren_mk]
      refine WF.mk p d e k _ ?_ ?_
      · rw [modifyIdx_map (fun c => updateAt c rest f) FileNode.full_path
          (fun x => updateAt_full_path hfp rest x)]
        exact WF_nodup hn
      · intro c hcmem
        rcases mem_modifyIdx hcmem with hl | ⟨x, hx1, hx2⟩
        · exact WF_child hn hl
        · rw [hx2]
          exact ih x (WF_child hn hx1)

theorem updateAt_visibleAddr (f : FileNode → FileNode) :
    ∀ (a : Addr) (n : FileNode), visibleAddr n a = true →
      visibleAddr (updateAt n a f) a = true := by
  intro a
  induction a with
  | nil => intro n _; rfl
  | cons i rest ih =>
    intro n hv
    cases hc : n.children[i]? with
    | none => rw [visibleAddr_cons_none hc] at hv; simp at hv
    | some c =>
      rw [visibleAddr_cons_some hc] at hv
      simp only [Bool.and_eq_true] at hv
      rw [updateAt_cons]
      have hc2 : (n.setChildren (modifyIdx (fun c => updateAt c rest f) n.children i)).children[i]?
          = some (updateAt c rest f) := by
        rw [FileNode.children_setChildren, modifyIdx_getElem?, if_pos rfl, hc]
        rfl
      rw [visibleAddr_cons_some hc2, FileNode.expanded_setChildren, hv.1, ih c hv.2]
      rfl

/-- One processed key event keeps the tree well-formed and the selection
on a visible node, and never raises. -/
theorem applyCommand_invariant {t : FileNode} {a : Addr} (c : NavCommand)
    (hwf : WF t) (hv : visibleAddr t a = true) :
    ∃ t2 a2, applyCommand (t, a) c = .ok (t2, a2) ∧ WF t2 ∧
      visibleAddr t2 a2 = true := by
  cases c with
  | up =>
    obtain ⟨a2, h1, h2⟩ := upStep_ok hwf hv
    refine ⟨t, a2, ?_, hwf, h2⟩
    simp [applyCommand, h1, Except.map]
  | down =>
    obtain ⟨a2, h1, h2, _⟩ := downStep_roundtrip hwf hv
    refine ⟨t, a2, ?_, hwf, h2⟩
    simp [applyCommand, h1, Except.map]
  | expandKey =>
    refine ⟨updateAt t a (fun n => n.setExpanded true), a, rfl, ?_, ?_⟩
    · exact updateAt_WF (by simp) (by simp) a t hwf
    · exact updateAt_visibleAddr _ a t hv
  | collapseKey =>
    refine ⟨updateAt t a (fun n => n.setExpanded false), a, rfl, ?_, ?_⟩
    · exact updateAt_WF (by simp) (by simp) a t hwf
    · exact updateAt_visibleAddr _ a t hv
  | toggleSelect =>
    refine ⟨updateAt t a (fun n => n.setPackage (!n.is_package)), a, rfl, ?_, ?_⟩
    · exact updateAt_WF (by simp) (by simp) a t hwf
    · exact updateAt_visibleAddr _ a t hv

theorem runCommands_invariant :
    ∀ (cmds : List NavCommand) (t : FileNode) (a : Addr), WF t →
      visibleAddr t a = true →
      ∃ t2 a2, runCommands (t, a) cmds = .ok (t2, a2) ∧ WF t2 ∧
        visibleAddr t2 a2 = true := by
  intro cmds
  induction cmds with
  | nil => exact fun t a hw hv => ⟨t, a, rfl, hw, hv⟩
  | cons c cs ih =>
    intro t a hw hv
    obtain ⟨t2, a2, h1, h2, h3⟩ := applyCommand_invariant c hw hv
    obtain ⟨t3, a3, k1, k2, k3⟩ := ih t2 a2 h2 h3
    refine ⟨t3, a3, ?_, k2, k3⟩
    rw [runCommands, h1]
    exact k1

/-! ### Claim theorems: navigation -/

theorem idxOfPath_some_of_exists {s : String} {l : List FileNode}
    (h : ∃ x ∈ l, x.full_path = s) : ∃ i, idxOfPath s l = some i := by
  obtain ⟨x, hx1, hx2⟩ := h
  obtain ⟨i, y, h1, _, _⟩ := idxOfPath_of_mem hx1
  rw [hx2] at h1
  exact ⟨i, h1⟩

/-- Claim C9: for every node contained (by path) in its parent's children
list, the sibling lookups `prev_sibling` and `next_sibling` never take the
`ConsistencyViolation` error branch: whenever the parent's visible
children list is non-empty the self-lookup succeeds, so the fatal branch
is unreachable under the parent back-reference invariant. -/
theorem C9_sibling_lookup_never_fails (p self : FileNode)
    (hmem : (p.children.map FileNode.full_path).contains self.full_path = true) :
    (∀ e, prev_sibling (some p) self ≠ .error e) ∧
      (∀ e, next_sibling (some p) self ≠ .error e) := by
  have hex : ∃ x ∈ p.children, x.full_path = self.full_path := by
    have h1 := List.contains_iff_exists_mem_beq.mp hmem
    obtain ⟨a, ha1, ha2⟩ := h1
    obtain ⟨x, hx1, hx2⟩ := List.mem_map.mp ha1
    exact ⟨x, hx1, by rw [hx2]; exact (beq_iff_eq.mp ha2).symm⟩
  cases hexp : p.expanded with
  | false =>
    constructor
    · intro e
      rw [prev_sibling_unexpanded hexp]
      simp
    · intro e
      rw [next_sibling_unexpanded hexp]
      simp
  | true =>
    have hvc := visible_children_of_expanded hexp
    have hex2 : ∃ x ∈ sortByPath p.children, x.full_path = self.full_path := by
      obtain ⟨x, hx1, hx2⟩ := hex
      exact ⟨x, mem_sortByPath.mpr hx1, hx2⟩
    obtain ⟨i, hi⟩ := idxOfPath_some_of_exists hex2
    have hne : ¬ ((sortByPath p.children).isEmpty = true) := by
      obtain ⟨x, hx1, _⟩ := hex2
      cases hl : sortByPath p.children with
      | nil => rw [hl] at hx1; cases hx1
      | cons y ys => simp
    constructor
    · intro e
      rw [prev_sibling, parent_sorted_children_some, hvc]
      simp only [hne, if_neg, hi]
      by_cases h0 : i = 0
      · rw [if_pos h0]; simp
      · rw [if_neg h0]; simp
    · intro e
      rw [next_sibling, parent_sorted_children_some, hvc]
      simp only [hne, if_neg, hi]
      by_cases h0 : i = (sortByPath p.children).length - 1
      · rw [if_pos h0]; simp
      · rw [if_neg h0]; simp

/-- Claim C3: from any visible selection in a well-formed tree, move-down
succeeds, and either it was a no-op (no next sibling anywhere up to the
root, or no rows below) or move-up brings the selection back to the
originating node; move-up at the root is itself a no-op. -/
theorem C3_move_down_then_up_returns (t : FileNode) (a : Addr) (hwf : WF t)
    (hv : visibleAddr t a = true) :
    (∃ a2, downStep t a = .ok a2 ∧ (a2 = a ∨ upStep t a2 = .ok a)) ∧
      upStep t [] = .ok [] := by
  obtain ⟨a2, h1, _, h3⟩ := downStep_roundtrip hwf hv
  exact ⟨⟨a2, h1, h3⟩, rfl⟩

/-- Claim C10: starting from the initial session state (root selected and
expanded), any finite sequence of up, down, expand, collapse and
toggle-select commands keeps the selection on a visible node: every
strict ancestor of the selected node stays expanded. -/
theorem C10_selection_always_visible (t : FileNode) (cmds : List NavCommand)
    (hwf : WF t) (hroot : t.expanded = true) :
    ∃ t2 a2, runCommands (t, []) cmds = .ok (t2, a2) ∧
      visibleAddr t2 a2 = true := by
  obtain ⟨t2, a2, h1, _, h3⟩ := runCommands_invariant cmds t [] hwf rfl
  exact ⟨t2, a2, h1, h3⟩

/-! Witness fixtures: a small concrete tree. -/

def wPathRoot : String := "/proj"

def wPathA : String := "/proj/alpha"

def wPathB : String := "/proj/beta"

def wNodeA : FileNode := .mk wPathA true false false []

def wNodeB : FileNode := .mk wPathB true false false []

def wRoot : FileNode := .mk wPathRoot true true false [wNodeA, wNodeB]

theorem wNodeLeaf_WF (p : String) (d e k : Bool) : WF (.mk p d e k []) :=
  WF.mk p d e k [] (by simp) (fun c hc => absurd hc (by simp))

theorem wRoot_WF : WF wRoot := by
  refine WF.mk wPathRoot true true false [wNodeA, wNodeB] ?_ ?_
  · show ([wPathA, wPathB] : List String).Nodup
    decide
  · intro c hc
    rcases List.mem_cons.mp hc with h1 | h2
    · rw [h1]; exact wNodeLeaf_WF wPathA true false false
    · rcases List.mem_cons.mp h2 with h3 | h4
      · rw [h3]; exact wNodeLeaf_WF wPathB true false false
      · exact absurd h4 (by simp)

/-- Witness for C9 at a concrete parent and child. -/
theorem C9_witness :
    ((wRoot.children.map FileNode.full_path).contains wNodeA.full_path = true) ∧
      ((∀ e, prev_sibling (some wRoot) wNodeA ≠ .error e) ∧
        (∀ e, next_sibling (some wRoot) wNodeA ≠ .error e)) :=
  ⟨by decide, C9_sibling_lookup_never_fails wRoot wNodeA (by decide)⟩

/-- Witness for C3 at a concrete tree and selection. -/
theorem C3_witness :
    WF wRoot ∧ visibleAddr wRoot [] = true ∧
      ((∃ a2, downStep wRoot [] = .ok a2 ∧
          (a2 = ([] : Addr) ∨ upStep wRoot a2 = .ok [])) ∧
        upStep wRoot [] = .ok []) :=
  ⟨wRoot_WF, rfl, C3_move_down_then_up_returns wRoot [] wRoot_WF rfl⟩

/-- Witness for C10 at a concrete tree and command sequence. -/
theorem C10_witness :
    WF wRoot ∧ wRoot.expanded = true ∧
      (∃ t2 a2,
        runCommands (wRoot, [])
          [NavCommand.down, NavCommand.toggleSelect, NavCommand.collapseKey,
            NavCommand.up, NavCommand.expandKey, NavCommand.down] = .ok (t2, a2) ∧
        visibleAddr t2 a2 = true) :=
  ⟨wRoot_WF, rfl,
    C10_selection_always_visible wRoot
      [NavCommand.down, NavCommand.toggleSelect, NavCommand.collapseKey,
        NavCommand.up, NavCommand.expandKey, NavCommand.down] wRoot_WF rfl⟩

/-! ### The iterator yields the recursively sorted pre-order traversal -/

theorem sorted_nodup_unique :
    ∀ (l1 l2 : List FileNode), l1.Perm l2 → List.Sorted pathLe l1 →
      List.Sorted pathLe l2 → (l1.map FileNode.full_path).Nodup → l1 = l2 := by
  intro l1
  induction l1 with
  | nil =>
    intro l2 hp _ _ _
    exact (hp.symm.eq_nil).symm
  | cons x xs ih =>
    intro l2 hp hs1 hs2 hnd
    cases l2 with
    | nil => exact absurd hp.eq_nil (by simp)
    | cons y ys =>
      have hxy : x = y := by
        have hxmem : x ∈ y :: ys := hp.mem_iff.mp (List.mem_cons_self x xs)
        have hymem : y ∈ x :: xs := hp.symm.mem_iff.mp (List.mem_cons_self y ys)
        rcases List.mem_cons.mp hxmem with hx1 | hx2
        · exact hx1
        rcases List.mem_cons.mp hymem with hy1 | hy2
        · exact hy1.symm
        · have h1 : pathLe y x := (List.sorted_cons.mp hs2).1 x hx2
          have h2 : pathLe x y := (List.sorted_cons.mp hs1).1 y hy2
          have hfp : x.full_path = y.full_path := le_antisymm h2 h1
          rw [List.map_cons, List.nodup_cons] at hnd
          exact absurd (hfp ▸ List.mem_map_of_mem FileNode.full_path hy2) hnd.1
      subst hxy
      have htl : xs = ys := by
        refine ih ys (hp.cons_inv) (List.sorted_cons.mp hs1).2
          (List.sorted_cons.mp hs2).2 ?_
        rw [List.map_cons, List.nodup_cons] at hnd
        exact hnd.2
      rw [htl]

theorem sortByPath_eq_of_perm {cs cs2 : List FileNode} (hperm : cs.Perm cs2)
    (hnd : (cs.map FileNode.full_path).Nodup) :
    sortByPath cs2 = sortByPath cs := by
  refine sorted_nodup_unique (sortByPath cs2) (sortByPath cs) ?_
    (sortByPath_sorted cs2) (sortByPath_sorted cs) ?_
  · exact (sortByPath_perm cs2).trans (hperm.symm.trans (sortByPath_perm cs).symm)
  · have h1 := ((sortByPath_perm cs2).map FileNode.full_path).nodup_iff
    refine h1.mpr ?_
    exact ((hperm.map FileNode.full_path).nodup_iff).mp hnd

theorem sortByPathRev_reverse_eq {l : List FileNode}
    (hnd : (l.map FileNode.full_path).Nodup) :
    (sortByPathRev l).reverse = sortByPath l := by
  show (sortByPath l.reverse).reverse.reverse = sortByPath l
  rw [List.reverse_reverse]
  exact sortByPath_eq_of_perm (List.reverse_perm l).symm hnd

@[simp] theorem childSel_false (n : FileNode) : childSel false n = n.children := rfl

@[simp] theorem childSel_true (n : FileNode) : childSel true n = n.visible_children := rfl

theorem childSel_sub_children {v : Bool} {n : FileNode} :
    childSel v n = n.children ∨ childSel v n = [] := by
  cases v with
  | false => exact Or.inl rfl
  | true =>
    rw [childSel_true]
    cases hexp : n.expanded with
    | true => exact Or.inl (visible_children_of_expanded hexp)
    | false => exact Or.inr (visible_children_of_not_expanded hexp)

theorem childSel_nodup {v : Bool} {n : FileNode} (hwf : WF n) :
    ((childSel v n).map FileNode.full_path).Nodup := by
  rcases childSel_sub_children (v := v) (n := n) with h | h
  · rw [h]; exact WF_nodup hwf
  · rw [h]; simp

theorem WF_childSel {v : Bool} {n c : FileNode} (hwf : WF n)
    (hc : c ∈ childSel v n) : WF c := by
  rcases childSel_sub_children (v := v) (n := n) with h | h
  · rw [h] at hc; exact WF_child hwf hc
  · rw [h] at hc; cases hc

theorem preorderTraversal_flatMap (v : Bool) (n : FileNode) :
    preorderTraversal v n
      = n :: (sortByPath (childSel v n)).flatMap (preorderTraversal v) := by
  rw [preorderTraversal_unfold]
  rfl

theorem iterGo_eq_flatMap (v : Bool) :
    ∀ (sz : Nat) (stack : List FileNode),
      (stack.map (fun m => sizeOf m)).sum ≤ sz → (∀ n ∈ stack, WF n) →
      file_tree_iterator_go v stack = stack.flatMap (preorderTraversal v) := by
  intro sz
  induction sz with
  | zero =>
    intro stack hle hwf
    cases stack with
    | nil => simp [file_tree_iterator_go]
    | cons n rest =>
      have := sizeOf_pos n
      simp only [List.map_cons, List.sum_cons] at hle
      omega
  | succ k ih =>
    intro stack hle hwf
    cases stack with
    | nil => simp [file_tree_iterator_go]
    | cons n rest =>
      have hwfn : WF n := hwf n (List.mem_cons_self n rest)
      have hpush : (sortByPathRev (childSel v n)).reverse = sortByPath (childSel v n) :=
        sortByPathRev_reverse_eq (childSel_nodup hwfn)
      have hsum := childSel_push_sum_lt v n rest
      have hle2 : ((((sortByPathRev (childSel v n)).reverse ++ rest)).map
          (fun m => sizeOf m)).sum ≤ k := by
        have := hle
        simp only [List.map_cons, List.sum_cons] at this
        omega
      have hwf2 : ∀ m ∈ (sortByPathRev (childSel v n)).reverse ++ rest, WF m := by
        intro m hm
        rcases List.mem_append.mp hm with h1 | h2
        · rw [hpush] at h1
          exact WF_childSel hwfn (mem_sortByPath.mp h1)
        · exact hwf m (List.mem_cons_of_mem n h2)
      rw [file_tree_iterator_go]
      rw [ih _ hle2 hwf2]
      rw [List.flatMap_cons, List.flatMap_append, hpush]
      rw [preorderTraversal_flatMap]
      rfl

/-- Shared result: either iterator equals the recursive sorted pre-order. -/
theorem iterator_eq_preorder (v : Bool) (t : FileTree) (hwf : WF t.root) :
    file_tree_iterator t v = preorderTraversal v t.root := by
  rw [file_tree_iterator]
  rw [iterGo_eq_flatMap v ((([t.root]).map (fun m => sizeOf m)).sum) [t.root]
    (le_refl _) (by intro n hn; rcases List.mem_singleton.mp hn with h; rw [h]; exact hwf)]
  simp [List.flatMap_cons]

theorem sortByPath_map_sorted_lt {l : List FileNode}
    (hnd : (l.map FileNode.full_path).Nodup) :
    List.Sorted (· < ·) ((sortByPath l).map FileNode.full_path) := by
  have hs : List.Pairwise pathLe (sortByPath l) := sortByPath_sorted l
  have hnd2 : ((sortByPath l).map FileNode.full_path).Nodup := sortByPath_nodup hnd
  show List.Pairwise (· < ·) ((sortByPath l).map FileNode.full_path)
  rw [List.pairwise_map]
  have hnd3 : List.Pairwise (fun a b => a.full_path ≠ b.full_path) (sortByPath l) := by
    have hx : List.Pairwise (· ≠ ·) ((sortByPath l).map FileNode.full_path) := hnd2
    exact (List.pairwise_map).mp hx
  refine (hs.and hnd3).imp ?_
  intro a b hab
  exact lt_of_le_of_ne hab.1 hab.2

/-- Claim C4: the full and visible traversals are the deterministic
pre-order walks whose children blocks are sorted strictly ascending by
path — the reverse-alphabetical `extendleft` push makes the children pop
in ascending order — and the traversal is independent of the order in
which children were inserted into a `children` list. -/
theorem C4_traversal_sorted_order_independent (t : FileTree) (hwf : WF t.root) :
    (file_tree_iterator t = preorderTraversal false t.root) ∧
    (file_tree_iterator t true = preorderTraversal true t.root) ∧
    (∀ a n, getNode t.root a = some n →
      List.Sorted (· < ·) ((sortByPath n.children).map FileNode.full_path) ∧
      List.Sorted (· < ·) ((sortByPath n.visible_children).map FileNode.full_path)) ∧
    (∀ (p : String) (d e k : Bool) (cs cs2 : List FileNode) (v : Bool),
      cs.Perm cs2 → WF (FileNode.mk p d e k cs) →
      sortByPath cs2 = sortByPath cs ∧
      (file_tree_iterator_go v [FileNode.mk p d e k cs2]).map FileNode.full_path
        = (file_tree_iterator_go v [FileNode.mk p d e k cs]).map FileNode.full_path) := by
  refine ⟨iterator_eq_preorder false t hwf, iterator_eq_preorder true t hwf, ?_, ?_⟩
  · intro a n hn
    have hwfn : WF n := WF_getNode hwf hn
    have hnd := WF_nodup hwfn
    refine ⟨sortByPath_map_sorted_lt hnd, sortByPath_map_sorted_lt ?_⟩
    cases hexp : n.expanded with
    | true => rw [visible_children_of_expanded hexp]; exact hnd
    | false => rw [visible_children_of_not_expanded hexp]; simp
  · intro p d e k cs cs2 v hperm hwfn
    have hnd : (cs.map FileNode.full_path).Nodup := by
      have := WF_nodup hwfn
      simpa using this
    have hsort := sortByPath_eq_of_perm hperm hnd
    refine ⟨hsort, ?_⟩
    have hwfn2 : WF (FileNode.mk p d e k cs2) := by
      refine WF.mk p d e k cs2 ?_ ?_
      · exact ((hperm.map FileNode.full_path).nodup_iff).mp hnd
      · intro c hc
        exact WF_child hwfn (hperm.symm.mem_iff.mp hc)
    have h1 : file_tree_iterator_go v [FileNode.mk p d e k cs2]
        = preorderTraversal v (FileNode.mk p d e k cs2) := by
      have := iterator_eq_preorder v ⟨FileNode.mk p d e k cs2, []⟩ hwfn2
      rw [file_tree_iterator] at this
      exact this
    have h2 : file_tree_iterator_go v [FileNode.mk p d e k cs]
        = preorderTraversal v (FileNode.mk p d e k cs) := by
      have := iterator_eq_preorder v ⟨FileNode.mk p d e k cs, []⟩ hwfn
      rw [file_tree_iterator] at this
      exact this
    rw [h1, h2, preorderTraversal_flatMap, preorderTraversal_flatMap]
    have hsel : sortByPath (childSel v (FileNode.mk p d e k cs2))
        = sortByPath (childSel v (FileNode.mk p d e k cs)) := by
      cases v with
      | false =>
        show sortByPath cs2 = sortByPath cs
        exact hsort
      | true =>
        show sortByPath (FileNode.mk p d e k cs2).visible_children
          = sortByPath (FileNode.mk p d e k cs).visible_children
        cases he : e with
        | true =>
          rw [visible_children_of_expanded (by simp),
            visible_children_of_expanded (by simp)]
          simpa using hsort
        | false =>
          rw [visible_children_of_not_expanded (by simp),
            visible_children_of_not_expanded (by simp)]
    rw [hsel]
    simp

/-- Witness for C4 at the concrete tree. -/
theorem C4_witness :
    WF wRoot ∧
      (file_tree_iterator ⟨wRoot, []⟩ = preorderTraversal false wRoot) :=
  ⟨wRoot_WF, (C4_traversal_sorted_order_independent ⟨wRoot, []⟩ wRoot_WF).1⟩

/-- Claim C5: exiting with the save signal returns exactly the marked
nodes of the full traversal (ignoring `expanded` flags), as
`SelectedPackage` records in traversal order; exiting with the discard
signal returns no result no matter how many nodes are marked. -/
theorem C5_save_collects_marked_discard_none (t : FileTree) (hwf : WF t.root) :
    InteractivePackageTree.run ExitCode.QUIT_SAVE t
      = some (((preorderTraversal false t.root).filter (fun n => n.is_package)).map
          (fun n => ⟨n.full_path⟩)) ∧
    (∀ t2 : FileTree, InteractivePackageTree.run ExitCode.QUIT_NOSAVE t2 = none) := by
  constructor
  · show some (((file_tree_iterator t).filter (fun n => n.is_package)).map
      (fun n => (⟨n.full_path⟩ : SelectedPackage))) = _
    rw [iterator_eq_preorder false t hwf]
  · intro t2
    rfl

/-- Witness for C5 at the concrete tree. -/
theorem C5_witness :
    WF wRoot ∧
      InteractivePackageTree.run ExitCode.QUIT_SAVE ⟨wRoot, []⟩
        = some (((preorderTraversal false wRoot).filter (fun n => n.is_package)).map
            (fun n => ⟨n.full_path⟩)) :=
  ⟨wRoot_WF, (C5_save_collects_marked_discard_none ⟨wRoot, []⟩ wRoot_WF).1⟩

/-! ### Depth semantics of `build_from_path` (claim C1) -/

/-- Forget every `expanded` flag in a tree, for comparing the structures
built at different depths. -/
def stripExpanded : FileNode → FileNode
  | .mk p d _ k cs => .mk p d false k (cs.attach.map (fun c => stripExpanded c.val))
termination_by n => sizeOf n
decreasing_by
  have h1 := List.sizeOf_lt_of_mem c.property
  simp
  omega

theorem stripExpanded_mk (p d e k cs) :
    stripExpanded (.mk p d e k cs) = .mk p d false k (cs.map stripExpanded) := by
  rw [stripExpanded]
  rw [List.attach_map_val cs stripExpanded]

/-- `getNode` through a children list. -/
def getNodeList (l : List FileNode) : Addr → Option FileNode
  | [] => none
  | i :: rest =>
    match l[i]? with
    | some c => getNode c rest
    | none => none

theorem getNodeList_cons_some {l : List FileNode} {c : FileNode} {i : Nat} {rest : Addr}
    (hc : l[i]? = some c) : getNodeList l (i :: rest) = getNode c rest := by
  rw [getNodeList, hc]

theorem getNodeList_cons_none {l : List FileNode} {i : Nat} {rest : Addr}
    (hc : l[i]? = none) : getNodeList l (i :: rest) = none := by
  rw [getNodeList, hc]

theorem getNode_eq_getNodeList (n : FileNode) (i : Nat) (rest : Addr) :
    getNode n (i :: rest) = getNodeList n.children (i :: rest) := by
  cases hc : n.children[i]? with
  | none => rw [getNode_cons_none hc, getNodeList_cons_none hc]
  | some c => rw [getNode_cons_some hc, getNodeList_cons_some hc]

theorem fsChild_sizeOf_lt {en fs : FSNode} (h : en ∈ fs.entries) :
    sizeOf en < sizeOf fs := by
  have h1 := List.sizeOf_lt_of_mem h
  cases fs with
  | mk s d p r es =>
    simp only [FSNode.entries_mk] at h1
    simp
    omega

/-- Any node of a built subtree comes from a non-hidden directory entry
and carries exactly the fields `_build_subtree` assigns. -/
theorem mem_subtreeChildren {fs : FSNode} {path : String} {depth : Nat} {c0 : FileNode}
    (h : c0 ∈ subtreeChildren fs path depth) :
    ∃ en, en ∈ fs.entries ∧ isHiddenName en.name = false ∧ en.isDir = true ∧
      c0 = FileNode.mk (joinPath path en.name) en.isDir (decide (depth > 0))
            en.hasPackageFile
            (subtreeChildren en (joinPath path en.name) (depth - 1)) := by
  cases fs with
  | mk s isd pkg rd es =>
    rw [subtreeChildren_mk] at h
    by_cases hisd : isd = true
    · rw [if_pos hisd] at h
      by_cases hrd : rd = true
      · rw [if_pos hrd] at h
        obtain ⟨en, hen, heq⟩ := List.mem_filterMap.mp h
        by_cases hh : isHiddenName en.name = true
        · rw [if_pos hh] at heq
          cases heq
        · rw [if_neg hh] at heq
          by_cases hd : en.isDir = true
          · rw [if_neg (by simp [hd])] at heq
            refine ⟨en, by simpa using hen, by simpa using hh, hd, ?_⟩
            by_cases hdep : depth > 0
            · simp only [if_pos hdep] at heq
              simp only [FileNode.build_from_path] at heq
              simp only [FileNode.setExpanded_mk, FileNode.setChildren_mk,
                Option.some.injEq] at heq
              rw [← heq]
              simp [hdep]
            · simp only [if_neg hdep] at heq
              simp only [FileNode.build_from_path] at heq
              simp only [FileNode.setChildren_mk, Option.some.injEq] at heq
              rw [← heq]
              simp [hdep]
          · rw [if_pos (by simp [hd])] at heq
            cases heq
      · rw [if_neg hrd] at h
        cases h
    · rw [if_neg hisd] at h
      cases h

/-- The `expanded` flag of the node at relative address `addr` inside a
built subtree records exactly whether its level is within `depth`. -/
theorem subtree_expanded_level :
    ∀ (addr : Addr) (fs : FSNode) (path : String) (depth : Nat) (c : FileNode),
      getNodeList (subtreeChildren fs path depth) addr = some c →
      (c.expanded = true ↔ addr.length ≤ depth) := by
  intro addr
  induction addr with
  | nil =>
    intro fs path depth c h
    rw [getNodeList] at h
    cases h
  | cons i rest ih =>
    intro fs path depth c h
    cases hc : (subtreeChildren fs path depth)[i]? with
    | none => rw [getNodeList_cons_none hc] at h; cases h
    | some c0 =>
      rw [getNodeList_cons_some hc] at h
      obtain ⟨en, _, _, _, hc0⟩ := mem_subtreeChildren (List.getElem?_mem hc)
      cases rest with
      | nil =>
        rw [getNode_nil] at h
        cases h
        rw [hc0]
        simp only [FileNode.expanded_mk, List.length_cons, List.length_nil]
        constructor
        · intro hx
          have := of_decide_eq_true hx
          omega
        · intro hx
          apply decide_eq_true
          omega
      | cons j rest2 =>
        rw [hc0, getNode_eq_getNodeList, FileNode.children_mk] at h
        have hih := ih en (joinPath path en.name) (depth - 1) c h
        rw [hih]
        simp only [List.length_cons]
        omega

/-- Pointwise: the built structure with `expanded` flags erased does not
depend on the requested depth. -/
theorem subtreeChildren_stripExpanded :
    ∀ (sz : Nat) (fs : FSNode), sizeOf fs ≤ sz → ∀ (path : String) (d1 d2 : Nat),
      (subtreeChildren fs path d1).map stripExpanded
        = (subtreeChildren fs path d2).map stripExpanded := by
  intro sz
  induction sz with
  | zero =>
    intro fs hle
    cases fs with
    | mk s d p r es => simp at hle
  | succ k ih =>
    intro fs hle path d1 d2
    cases fs with
    | mk s isd pkg rd es =>
      rw [subtreeChildren_mk, subtreeChildren_mk]
      by_cases hisd : isd = true
      · rw [if_pos hisd, if_pos hisd]
        by_cases hrd : rd = true
        · rw [if_pos hrd, if_pos hrd]
          rw [List.map_filterMap, List.map_filterMap]
          apply List.filterMap_congr
          intro en hen
          by_cases hh : isHiddenName en.name = true
          · rw [if_pos hh, if_pos hh]
          · rw [if_neg hh, if_neg hh]
            by_cases hd : en.isDir = true
            · rw [if_neg (by simp [hd]), if_neg (by simp [hd])]
              have hsz : sizeOf en ≤ k := by
                have := @fsChild_sizeOf_lt en (FSNode.mk s isd pkg rd es)
                  (by simpa using hen)
                omega
              have hrec := ih en hsz (joinPath path en.name) (d1 - 1) (d2 - 1)
              simp only [FileNode.build_from_path]
              by_cases h1 : d1 > 0 <;> by_cases h2 : d2 > 0 <;>
                simp [h1, h2, stripExpanded_mk, hrec]
            · rw [if_pos (by simp [hd]), if_pos (by simp [hd])]
        · rw [if_neg hrd, if_neg hrd]
      · rw [if_neg hisd, if_neg hisd]

theorem build_root_eq (fs : FSNode) (canonical : String → String)
    (path : String) (depth : Nat) :
    (FileTree.build_from_path fs canonical path depth).root
      = FileNode.mk (canonical path) fs.isDir true fs.hasPackageFile
          (subtreeChildren fs (canonical path) depth) := by
  rw [FileTree.build_from_path, FileNode.build_from_path]
  rfl

/-- Claim C1 (amended): `depth` bounds only which nodes are marked
expanded — the root is always expanded and a node at level `ℓ ≥ 1` is
expanded iff `ℓ ≤ depth` — while the built structure itself (paths,
directory and package flags, children) is the same at every depth: the
construction recurses through the whole directory tree regardless of
`depth`, so nodes beyond the depth limit still have their children
populated. -/
theorem C1_depth_bounds_expansion_only (fs : FSNode) (canonical : String → String)
    (path : String) (depth : Nat) :
    (FileTree.build_from_path fs canonical path depth).root.expanded = true ∧
    (∀ (a : Addr) (n : FileNode), a ≠ [] →
      getNode (FileTree.build_from_path fs canonical path depth).root a = some n →
      (n.expanded = true ↔ a.length ≤ depth)) ∧
    (∀ d2 : Nat,
      stripExpanded (FileTree.build_from_path fs canonical path depth).root
        = stripExpanded (FileTree.build_from_path fs canonical path d2).root) := by
  refine ⟨?_, ?_, ?_⟩
  · rw [build_root_eq]
    rfl
  · intro a n ha hn
    cases a with
    | nil => exact absurd rfl ha
    | cons i rest =>
      rw [build_root_eq, getNode_eq_getNodeList, FileNode.children_mk] at hn
      exact subtree_expanded_level (i :: rest) fs (canonical path) depth n hn
  · intro d2
    rw [build_root_eq, build_root_eq, stripExpanded_mk, stripExpanded_mk]
    rw [subtreeChildren_stripExpanded (sizeOf fs) fs (le_refl _) (canonical path) depth d2]

/-- Building over a readable directory with a single non-hidden
subdirectory entry yields exactly one child. -/
theorem subtreeChildren_single {s : String} {pkg : Bool} {e : FSNode}
    (path : String) (depth : Nat)
    (hh : isHiddenName e.name = false) (hd : e.isDir = true) :
    subtreeChildren (.mk s true pkg true [e]) path depth
      = [FileNode.mk (joinPath path e.name) true (decide (depth > 0))
          e.hasPackageFile
          (subtreeChildren e (joinPath path e.name) (depth - 1))] := by
  rw [subtreeChildren_mk]
  rw [if_pos rfl, if_pos rfl]
  rw [List.filterMap_cons, List.filterMap_nil]
  rw [if_neg (by simp [hh]), if_neg (by simp [hd])]
  simp only [FileNode.build_from_path]
  by_cases hdep : depth > 0
  · simp [hdep, hd]
  · simp [hdep, hd]

/-! Concrete filesystem for the C1 and C2 counterexamples: a root
directory containing `pkga`, which itself contains `pkgb`. -/

def cxRootPath : String := "/repo"

def cxName1 : String := "pkga"

def cxName2 : String := "pkgb"

def cxFS2 : FSNode := .mk cxName2 true false true []

def cxFS1 : FSNode := .mk cxName1 true false true [cxFS2]

def cxFS : FSNode := .mk cxRootPath true false true [cxFS1]

theorem cxFS_children_d0 :
    subtreeChildren cxFS cxRootPath 0
      = [FileNode.mk (joinPath cxRootPath cxName1) true false false
          (subtreeChildren cxFS1 (joinPath cxRootPath cxName1) 0)] := by
  have h := @subtreeChildren_single cxRootPath false cxFS1
    cxRootPath 0 (by decide) (by decide)
  simpa using h

theorem cxFS1_children_d0 (p : String) :
    subtreeChildren cxFS1 p 0
      = [FileNode.mk (joinPath p cxName2) true false false
          (subtreeChildren cxFS2 (joinPath p cxName2) 0)] := by
  have h := @subtreeChildren_single cxName1 false cxFS2
    p 0 (by decide) (by decide)
  simpa using h

/-- A directory with no entries yields no children. -/
theorem subtreeChildren_nil_entries {s : String} {pkg : Bool} (path : String)
    (depth : Nat) :
    subtreeChildren (.mk s true pkg true []) path depth = [] := by
  rw [subtreeChildren_mk]
  simp

def cxPath1 : String := joinPath cxRootPath cxName1

def cxPath2 : String := joinPath cxPath1 cxName2

def cxChild2 : FileNode := .mk cxPath2 true false false []

def cxChild1 : FileNode := .mk cxPath1 true false false [cxChild2]

theorem cx_build0_children :
    (FileTree.build_from_path cxFS (fun s => s) cxRootPath 0).root.children
      = [cxChild1] := by
  rw [build_root_eq, FileNode.children_mk]
  rw [cxFS_children_d0]
  rw [cxFS1_children_d0]
  show [FileNode.mk cxPath1 true false false
    [FileNode.mk cxPath2 true false false (subtreeChildren cxFS2 cxPath2 0)]] = _
  rw [show subtreeChildren cxFS2 cxPath2 0 = [] from subtreeChildren_nil_entries cxPath2 0]
  rfl

theorem cx_getNode0 :
    getNode (FileTree.build_from_path cxFS (fun s => s) cxRootPath 0).root [0]
      = some cxChild1 := by
  have h0 : (FileTree.build_from_path cxFS (fun s => s) cxRootPath 0).root.children[0]?
      = some cxChild1 := by
    rw [cx_build0_children]
    simp
  rw [getNode_cons_some h0, getNode_nil]

/-- Counterexample to claim C1 as stated: in a depth-0 build the first
level child is unexpanded, yet its children ARE populated — the
construction recursed below the depth limit. -/
theorem C1_counterexample :
    (getNode (FileTree.build_from_path cxFS (fun s => s) cxRootPath 0).root
        [0, 0]).isSome = true
      ∧ cxChild1.expanded = false ∧ cxChild1.children ≠ [] := by
  refine ⟨?_, rfl, by simp [cxChild1]⟩
  have h0 : (FileTree.build_from_path cxFS (fun s => s) cxRootPath 0).root.children[0]?
      = some cxChild1 := by
    rw [cx_build0_children]
    simp
  rw [getNode_cons_some h0]
  have h1 : cxChild1.children[0]? = some cxChild2 := by
    simp [cxChild1]
  rw [getNode_cons_some h1, getNode_nil]
  rfl

/-- Witness for the amended C1 at a concrete input. -/
theorem C1_witness :
    (([0] : Addr) ≠ []) ∧
      getNode (FileTree.build_from_path cxFS (fun s => s) cxRootPath 0).root [0]
        = some cxChild1 ∧
      (cxChild1.expanded = true ↔ ([0] : Addr).length ≤ 0) :=
  ⟨by simp, cx_getNode0,
    (C1_depth_bounds_expansion_only cxFS (fun s => s) cxRootPath 0).2.1 [0] cxChild1
      (by simp) cx_getNode0⟩

/-! ### The path→node index built by `build_from_path` (claim C8) -/

theorem build_nodes_eq (fs : FSNode) (canonical : String → String)
    (path : String) (depth : Nat) :
    (FileTree.build_from_path fs canonical path depth).nodes
      = (path, (FileTree.build_from_path fs canonical path depth).root)
          :: ((((FileTree.build_from_path fs canonical path depth).root.children).map
              selfIndexEntries).flatten) := rfl

theorem selfIndexEntries_head (n : FileNode) :
    (n.full_path, n) ∈ selfIndexEntries n := by
  cases n with
  | mk p d e k cs =>
    rw [selfIndexEntries_mk]
    exact List.mem_cons_self _ _

theorem selfIndexEntries_tail {n : FileNode} {x : String × FileNode}
    (h : x ∈ (n.children.map selfIndexEntries).flatten) :
    x ∈ selfIndexEntries n := by
  cases n with
  | mk p d e k cs =>
    rw [selfIndexEntries_mk]
    refine List.mem_cons_of_mem _ ?_
    simpa using h

/-- Every node reached by a non-empty address appears, keyed by its own
path, among the index entries contributed by the root's children. -/
theorem getNode_mem_childEntries :
    ∀ (a : Addr) (n m : FileNode), a ≠ [] → getNode n a = some m →
      (m.full_path, m) ∈ (n.children.map selfIndexEntries).flatten := by
  intro a
  induction a with
  | nil => intro n m ha _; exact absurd rfl ha
  | cons i rest ih =>
    intro n m _ h
    cases hc : n.children[i]? with
    | none => rw [getNode_cons_none hc] at h; cases h
    | some c =>
      rw [getNode_cons_some hc] at h
      have hcmem : c ∈ n.children := List.getElem?_mem hc
      have hsub : selfIndexEntries c ∈ n.children.map selfIndexEntries :=
        List.mem_map_of_mem selfIndexEntries hcmem
      refine List.mem_flatten.mpr ⟨selfIndexEntries c, hsub, ?_⟩
      cases rest with
      | nil =>
        rw [getNode_nil] at h
        cases h
        exact selfIndexEntries_head _
      | cons j rest2 =>
        exact selfIndexEntries_tail (ih c m (by simp) h)

theorem find?_eq_none_of_keys {l : List (String × FileNode)} {k : String}
    (h : k ∉ l.map Prod.fst) : l.find? (fun kv => kv.fst == k) = none := by
  rw [List.find?_eq_none]
  intro kv hkv
  simp only [beq_iff_eq]
  intro hcontra
  exact h (hcontra ▸ List.mem_map_of_mem Prod.fst hkv)

/-- In a dictionary with pairwise distinct keys, looking up the key of a
stored entry returns its value. -/
theorem dictLookup_of_mem :
    ∀ {l : List (String × FileNode)}, ((l.map Prod.fst).Nodup) →
      ∀ {k : String} {v : FileNode}, (k, v) ∈ l → dictLookup l k = some v := by
  intro l
  induction l with
  | nil => intro _ k v hm; cases hm
  | cons x xs ih =>
    intro hnd k v hm
    rw [List.map_cons, List.nodup_cons] at hnd
    rw [dictLookup, List.reverse_cons, List.find?_append]
    cases hm with
    | head =>
      have hnone : xs.reverse.find? (fun kv => kv.fst == k) = none := by
        refine find?_eq_none_of_keys ?_
        rw [List.map_reverse, List.mem_reverse]
        exact hnd.1
      rw [hnone]
      simp
    | tail _ hm2 =>
      have hsome := ih hnd.2 hm2
      rw [dictLookup] at hsome
      cases hf : xs.reverse.find? (fun kv => kv.fst == k) with
      | none => rw [hf] at hsome; cases hsome
      | some kv =>
        rw [hf] at hsome
        rw [Option.or_some]
        exact hsome

/-- Claim C8 (amended): in the index built by `build_from_path`, every
node other than the root is keyed by its own `full_path`, but the root is
keyed by the RAW `path` argument, not by its canonical `full_path`; a
lookup of `root.full_path` is only guaranteed when the given path was
already canonical. -/
theorem C8_index_keyed_by_full_path_except_root (fs : FSNode)
    (canonical : String → String) (path : String) (depth : Nat)
    (hnd : (((FileTree.build_from_path fs canonical path depth).nodes).map
      Prod.fst).Nodup) :
    dictLookup (FileTree.build_from_path fs canonical path depth).nodes path
      = some (FileTree.build_from_path fs canonical path depth).root ∧
    (∀ (a : Addr) (n : FileNode), a ≠ [] →
      getNode (FileTree.build_from_path fs canonical path depth).root a = some n →
      dictLookup (FileTree.build_from_path fs canonical path depth).nodes n.full_path
        = some n) ∧
    (canonical path = path →
      dictLookup (FileTree.build_from_path fs canonical path depth).nodes
          ((FileTree.build_from_path fs canonical path depth).root.full_path)
        = some (FileTree.build_from_path fs canonical path depth).root) := by
  refine ⟨?_, ?_, ?_⟩
  · refine dictLookup_of_mem hnd ?_
    rw [build_nodes_eq]
    exact List.mem_cons_self _ _
  · intro a n ha hn
    refine dictLookup_of_mem hnd ?_
    rw [build_nodes_eq]
    refine List.mem_cons_of_mem _ ?_
    exact getNode_mem_childEntries a _ n ha hn
  · intro hcanon
    have hfp : (FileTree.build_from_path fs canonical path depth).root.full_path
        = path := by
      rw [build_root_eq, FileNode.full_path_mk, hcanon]
    rw [hfp]
    refine dictLookup_of_mem hnd ?_
    rw [build_nodes_eq]
    exact List.mem_cons_self _ _

/-- A filesystem entry with no children, used by the C8 counterexample. -/
def cxRelPath : String := "repo"

def cxFSLeaf : FSNode := .mk cxRelPath true false true []

theorem cxLeaf_children (canonical : String → String) (depth : Nat) :
    (FileTree.build_from_path cxFSLeaf canonical cxRelPath depth).root.children = [] := by
  rw [build_root_eq, FileNode.children_mk]
  exact subtreeChildren_nil_entries _ _

/-- Counterexample to claim C8 as stated: with a non-canonical input path
(here made absolute by the canonicalization function), the root is
indexed under the raw argument only, so looking it up under its own
`full_path` — what `expand_path` would do — fails. -/
theorem C8_counterexample :
    dictLookup
        (FileTree.build_from_path cxFSLeaf (fun s => pathSep ++ s) cxRelPath 1).nodes
        ((FileTree.build_from_path cxFSLeaf (fun s => pathSep ++ s) cxRelPath 1).root.full_path)
      = none := by
  rw [build_nodes_eq, cxLeaf_children]
  rw [build_root_eq, FileNode.full_path_mk]
  rw [dictLookup]
  simp only [List.map_nil, List.flatten_nil]
  rw [List.reverse_cons]
  simp only [List.reverse_nil, List.nil_append]
  rw [List.find?_cons_of_neg _ (by decide), List.find?_nil]
  rfl

/-- Witness for the amended C8 at a concrete input. -/
theorem C8_witness :
    ((((FileTree.build_from_path cxFSLeaf (fun s => pathSep ++ s) cxRelPath 1).nodes).map
        Prod.fst).Nodup) ∧
      dictLookup (FileTree.build_from_path cxFSLeaf (fun s => pathSep ++ s) cxRelPath 1).nodes
          cxRelPath
        = some (FileTree.build_from_path cxFSLeaf (fun s => pathSep ++ s) cxRelPath 1).root := by
  have hnd : (((FileTree.build_from_path cxFSLeaf (fun s => pathSep ++ s) cxRelPath 1).nodes).map
      Prod.fst).Nodup := by
    rw [build_nodes_eq, cxLeaf_children]
    simp
  exact ⟨hnd,
    (C8_index_keyed_by_full_path_except_root cxFSLeaf (fun s => pathSep ++ s)
      cxRelPath 1 hnd).1⟩

/-! ### Frame behaviour of `expand_path` (claim C2) -/

/-- All node paths of the tree are pairwise distinct (true of trees read
from a filesystem). -/
def UniquePaths (n : FileNode) : Prop := ((selfIndexEntries n).map Prod.fst).Nodup

theorem UniquePaths_child {n c : FileNode} (h : UniquePaths n)
    (hc : c ∈ n.children) : UniquePaths c := by
  cases n with
  | mk p d e k cs =>
    rw [UniquePaths, selfIndexEntries_mk, List.map_cons, List.nodup_cons] at h
    rw [FileNode.children_mk] at hc
    have hsubl : (selfIndexEntries c).Sublist ((cs.map selfIndexEntries).flatten) :=
      List.sublist_flatten_of_mem (List.mem_map_of_mem selfIndexEntries hc)
    exact (hsubl.map Prod.fst).nodup h.2

theorem UniquePaths_head_not_desc {p : String} {d e k : Bool} {cs : List FileNode}
    (h : UniquePaths (.mk p d e k cs)) :
    p ∉ ((cs.map selfIndexEntries).flatten).map Prod.fst := by
  rw [UniquePaths, selfIndexEntries_mk, List.map_cons, List.nodup_cons] at h
  exact h.1

/-- Effect of the in-place subtree mutation of `expand_path` on every node
of the tree: the (unique) node with the target path has the freshly built
children appended, every other node keeps its path, flags and child
count. -/
theorem updateByPath_grow_getNode (tgt : String) (newKids : List FileNode) :
    ∀ (a : Addr) (n m : FileNode), UniquePaths n → getNode n a = some m →
      (m.full_path = tgt →
        getNode (updateByPath tgt (fun x => x.setChildren (x.children ++ newKids)) n) a
          = some (m.setChildren (m.children ++ newKids))) ∧
      (m.full_path ≠ tgt → ∃ m2,
        getNode (updateByPath tgt (fun x => x.setChildren (x.children ++ newKids)) n) a
          = some m2 ∧ m2.full_path = m.full_path ∧ m2.is_dir = m.is_dir ∧
          m2.expanded = m.expanded ∧ m2.is_package = m.is_package ∧
          m2.children.length = m.children.length) := by
  intro a
  induction a with
  | nil =>
    intro n m hu h
    rw [getNode_nil] at h
    cases h
    constructor
    · intro htgt
      cases n with
      | mk p d e k cs =>
        rw [updateByPath_mk, if_pos (by simpa using htgt)]
        rw [getNode_nil]
    · intro hne
      cases n with
      | mk p d e k cs =>
        rw [updateByPath_mk, if_neg (by simpa using hne)]
        refine ⟨_, getNode_nil _, ?_⟩
        simp
  | cons i rest ih =>
    intro n m hu h
    cases n with
    | mk p d e k cs =>
    cases hc : (FileNode.mk p d e k cs).children[i]? with
    | none => rw [getNode_cons_none hc] at h; cases h
    | some c =>
    rw [getNode_cons_some hc] at h
    have hclt : i < cs.length := by
      have := (List.getElem?_eq_some_iff.mp (by simpa using hc)).1
      exact this
    by_cases hp : p = tgt
    · rw [updateByPath_mk, if_pos hp]
      have hc2 : ((FileNode.mk p d e k cs).setChildren
          ((FileNode.mk p d e k cs).children ++ newKids)).children[i]? = some c := by
        simp only [FileNode.children_mk, FileNode.setChildren_mk]
        rw [List.getElem?_append]
        rw [if_pos hclt]
        simpa using hc
      constructor
      · intro htgt
        exfalso
        have horig : getNode (FileNode.mk p d e k cs) (i :: rest) = some m := by
          rw [getNode_cons_some hc]
          exact h
        have hmem := getNode_mem_childEntries (i :: rest) (FileNode.mk p d e k cs) m
          (by simp) horig
        rw [FileNode.children_mk] at hmem
        have hkey : m.full_path ∈ ((cs.map selfIndexEntries).flatten).map Prod.fst :=
          List.mem_map_of_mem Prod.fst hmem
        rw [htgt, ← hp] at hkey
        exact UniquePaths_head_not_desc hu hkey
      · intro hne
        refine ⟨m, ?_, rfl, rfl, rfl, rfl, rfl⟩
        rw [getNode_cons_some hc2]
        exact h
    · rw [updateByPath_mk, if_neg hp]
      have hc2 : (FileNode.mk p d e k
          (cs.map (updateByPath tgt (fun x => x.setChildren (x.children ++ newKids))))).children[i]?
          = some (updateByPath tgt (fun x => x.setChildren (x.children ++ newKids)) c) := by
        simp only [FileNode.children_mk]
        rw [List.getElem?_map]
        rw [show cs[i]? = some c from by simpa using hc]
        rfl
      have hcget : cs[i]? = some c := by simpa using hc
      have hcmem : c ∈ cs := List.getElem?_mem hcget
      have hcu : UniquePaths c :=
        UniquePaths_child hu (by rw [FileNode.children_mk]; exact hcmem)
      have hih := ih c m hcu h
      constructor
      · intro htgt
        rw [getNode_cons_some hc2]
        exact hih.1 htgt
      · intro hne
        obtain ⟨m2, k1, k2, k3, k4, k5, k6⟩ := hih.2 hne
        refine ⟨m2, ?_, k2, k3, k4, k5, k6⟩
        rw [getNode_cons_some hc2]
        exact k1

theorem expand_path_notFound {fsub : FSNode} {t : FileTree} {path : String}
    (hl : dictLookup t.nodes path = none) :
    FileTree.expand_path fsub t path = .error (.notFound path) := by
  unfold FileTree.expand_path
  simp only [hl]

theorem expand_path_notADirectory {fsub : FSNode} {t : FileTree} {path : String}
    {node : FileNode} (hl : dictLookup t.nodes path = some node)
    (hdir : node.is_dir = false) :
    FileTree.expand_path fsub t path = .error (.notADirectory path) := by
  unfold FileTree.expand_path
  simp only [hl]
  rw [if_pos (by simp [hdir])]

theorem expand_path_ok {fsub : FSNode} {t : FileTree} {path : String}
    {node : FileNode} (hl : dictLookup t.nodes path = some node)
    (hdir : node.is_dir = true) :
    FileTree.expand_path fsub t path = .ok
      { root := updateByPath node.full_path
          (fun x => x.setChildren (x.children ++ subtreeChildren fsub node.full_path 1)) t.root,
        nodes := t.nodes.map (fun kv => (kv.fst, updateByPath node.full_path
            (fun x => x.setChildren (x.children ++ subtreeChildren fsub node.full_path 1)) kv.snd))
          ++ ((subtreeChildren fsub node.full_path 1).map selfIndexEntries).flatten } := by
  unfold FileTree.expand_path
  simp only [hl]
  rw [if_neg (by simp [hdir])]

/-- Claim C2 (amended): expanding a directory node appends to the
looked-up node — the tree node carrying its `full_path` — the full
filesystem subtree built at depth 1 from that node's own path (its
immediate children expanded, deeper levels present but unexpanded), and
every other node of the tree keeps its path, flags, and child count. -/
theorem C2_expand_rebuilds_subtree_frame (fsub : FSNode) (t : FileTree)
    (path : String) (node : FileNode)
    (hl : dictLookup t.nodes path = some node)
    (hdir : node.is_dir = true)
    (hu : UniquePaths t.root) :
    ∃ t2, FileTree.expand_path fsub t path = .ok t2 ∧
      (∀ (a : Addr) (m : FileNode), getNode t.root a = some m →
        m.full_path = node.full_path →
        getNode t2.root a
          = some (m.setChildren (m.children ++ subtreeChildren fsub node.full_path 1))) ∧
      (∀ (a : Addr) (m : FileNode), getNode t.root a = some m →
        m.full_path ≠ node.full_path →
        ∃ m2, getNode t2.root a = some m2 ∧ m2.full_path = m.full_path ∧
          m2.is_dir = m.is_dir ∧ m2.expanded = m.expanded ∧
          m2.is_package = m.is_package ∧
          m2.children.length = m.children.length) ∧
      (∀ (addr : Addr) (c : FileNode),
        getNodeList (subtreeChildren fsub node.full_path 1) addr = some c →
        (c.expanded = true ↔ addr.length ≤ 1)) := by
  refine ⟨_, expand_path_ok hl hdir, ?_, ?_, ?_⟩
  · intro a m hm htgt
    exact (updateByPath_grow_getNode node.full_path
      (subtreeChildren fsub node.full_path 1) a t.root m hu hm).1 htgt
  · intro a m hm hne
    exact (updateByPath_grow_getNode node.full_path
      (subtreeChildren fsub node.full_path 1) a t.root m hu hm).2 hne
  · intro addr c hc
    exact subtree_expanded_level addr fsub node.full_path 1 c hc

/-- Claim C6: `expand_path` raises the NotFound `TachError` exactly when
the path is absent from the tree index, raises the NotADirectory
`TachError` exactly when the indexed node is not a directory, and
otherwise succeeds, rerunning the bounded construction step at depth 1 on
the looked-up node — based at that node's own `full_path` (the failures
return before any mutation, leaving the tree unchanged). -/
theorem C6_expand_error_conditions (fsub : FSNode) (t : FileTree) (path : String) :
    (FileTree.expand_path fsub t path = .error (.notFound path)
      ↔ dictLookup t.nodes path = none) ∧
    (FileTree.expand_path fsub t path = .error (.notADirectory path)
      ↔ ∃ node, dictLookup t.nodes path = some node ∧ node.is_dir = false) ∧
    (∀ node, dictLookup t.nodes path = some node → node.is_dir = true →
      FileTree.expand_path fsub t path = .ok
        { root := updateByPath node.full_path
            (fun x => x.setChildren
              (x.children ++ subtreeChildren fsub node.full_path 1)) t.root,
          nodes := t.nodes.map (fun kv => (kv.fst, updateByPath node.full_path
              (fun x => x.setChildren
                (x.children ++ subtreeChildren fsub node.full_path 1)) kv.snd))
            ++ ((subtreeChildren fsub node.full_path 1).map selfIndexEntries).flatten }) := by
  refine ⟨?_, ?_, ?_⟩
  · constructor
    · intro h
      cases hl : dictLookup t.nodes path with
      | none => rfl
      | some node =>
        cases hdir : node.is_dir with
        | false =>
          rw [expand_path_notADirectory hl hdir] at h
          simp at h
        | true =>
          rw [expand_path_ok hl hdir] at h
          simp at h
    · intro h
      exact expand_path_notFound h
  · constructor
    · intro h
      cases hl : dictLookup t.nodes path with
      | none =>
        rw [expand_path_notFound hl] at h
        simp at h
      | some node =>
        cases hdir : node.is_dir with
        | false => exact ⟨node, rfl, hdir⟩
        | true =>
          rw [expand_path_ok hl hdir] at h
          simp at h
    · intro ⟨node, hl, hdir⟩
      exact expand_path_notADirectory hl hdir
  · intro node hl hdir
    exact expand_path_ok hl hdir

/-! Concrete expand scenario: a tree whose root was built over an empty
directory, then expanded against a snapshot in which the directory has
gained a subdirectory that itself contains a subdirectory. -/

def cxT0 : FileTree := FileTree.build_from_path cxFSLeaf (fun s => s) cxRootPath 1

theorem cxT0_root : cxT0.root = FileNode.mk cxRootPath true true false [] := by
  show (FileTree.build_from_path cxFSLeaf (fun s => s) cxRootPath 1).root = _
  rw [build_root_eq]
  show FileNode.mk cxRootPath true true false
    (subtreeChildren (.mk cxRelPath true false true []) cxRootPath 1) = _
  rw [subtreeChildren_nil_entries]

theorem cxT0_nodes : cxT0.nodes = [(cxRootPath, cxT0.root)] := by
  show (FileTree.build_from_path cxFSLeaf (fun s => s) cxRootPath 1).nodes = _
  rw [build_nodes_eq]
  have hc : (FileTree.build_from_path cxFSLeaf (fun s => s) cxRootPath 1).root.children
      = [] := by
    have h := cxT0_root
    rw [show (FileTree.build_from_path cxFSLeaf (fun s => s) cxRootPath 1).root
      = cxT0.root from rfl]
    rw [h]
    rfl
  rw [hc]
  rfl

theorem cxT0_lookup : dictLookup cxT0.nodes cxRootPath = some cxT0.root := by
  rw [cxT0_nodes, dictLookup]
  rw [List.reverse_cons, List.reverse_nil, List.nil_append]
  rw [List.find?_cons_of_pos _ (by simp)]
  rfl

theorem cxT0_root_isdir : cxT0.root.is_dir = true := by
  rw [cxT0_root]
  rfl

theorem cxT0_unique : UniquePaths cxT0.root := by
  rw [UniquePaths, cxT0_root, selfIndexEntries_mk]
  simp

theorem cx_newKids :
    subtreeChildren cxFS cxRootPath 1
      = [FileNode.mk cxPath1 true true false
          (subtreeChildren cxFS1 cxPath1 0)] := by
  have h1 := @subtreeChildren_single cxRootPath false cxFS1
    cxRootPath 1 (by decide) (by decide)
  show subtreeChildren (.mk cxRootPath true false true [cxFS1]) cxRootPath 1 = _
  rw [h1]
  rfl

/-- Counterexample to claim C2 as stated: expanding a previously childless
directory node does not populate only its immediate children — the
construction step recurses, so a grandchild is materialized as well. -/
theorem C2_counterexample :
    (FileTree.expand_path cxFS cxT0 cxRootPath).map
        (fun t2 => (getNode t2.root [0, 0]).isSome)
      = .ok true := by
  rw [expand_path_ok cxT0_lookup cxT0_root_isdir]
  show Except.ok ((getNode (updateByPath cxT0.root.full_path
    (fun x => x.setChildren (x.children ++ subtreeChildren cxFS cxT0.root.full_path 1))
    cxT0.root) [0, 0]).isSome) = Except.ok true
  rw [cxT0_root]
  simp only [FileNode.full_path_mk]
  rw [updateByPath_mk, if_pos rfl]
  simp only [FileNode.setChildren_mk, FileNode.children_mk, List.nil_append]
  rw [cx_newKids]
  have h0 : ([FileNode.mk cxPath1 true true false
      (subtreeChildren cxFS1 cxPath1 0)] : List FileNode)[0]?
      = some (FileNode.mk cxPath1 true true false
        (subtreeChildren cxFS1 cxPath1 0)) := by simp
  have hg : (FileNode.mk cxRootPath true true false
      [FileNode.mk cxPath1 true true false
        (subtreeChildren cxFS1 cxPath1 0)]).children[0]?
      = some (FileNode.mk cxPath1 true true false
        (subtreeChildren cxFS1 cxPath1 0)) := by
    rw [FileNode.children_mk]
    exact h0
  rw [getNode_cons_some hg]
  have h1 : (FileNode.mk cxPath1 true true false
      (subtreeChildren cxFS1 cxPath1 0)).children[0]?
      = some (FileNode.mk (joinPath cxPath1 cxName2) true false false
        (subtreeChildren cxFS2 (joinPath cxPath1 cxName2) 0)) := by
    rw [FileNode.children_mk, cxFS1_children_d0]
    simp
  rw [getNode_cons_some h1, getNode_nil]
  rfl

/-- Witness for the amended C2 at the concrete expand scenario. -/
theorem C2_witness :
    dictLookup cxT0.nodes cxRootPath = some cxT0.root ∧
      cxT0.root.is_dir = true ∧ UniquePaths cxT0.root ∧
      (∃ t2, FileTree.expand_path cxFS cxT0 cxRootPath = .ok t2 ∧
        (∀ (a : Addr) (m : FileNode), getNode cxT0.root a = some m →
          m.full_path = cxT0.root.full_path →
          getNode t2.root a
            = some (m.setChildren
                (m.children ++ subtreeChildren cxFS cxT0.root.full_path 1))) ∧
        (∀ (a : Addr) (m : FileNode), getNode cxT0.root a = some m →
          m.full_path ≠ cxT0.root.full_path →
          ∃ m2, getNode t2.root a = some m2 ∧ m2.full_path = m.full_path ∧
            m2.is_dir = m.is_dir ∧ m2.expanded = m.expanded ∧
            m2.is_package = m.is_package ∧
            m2.children.length = m.children.length) ∧
        (∀ (addr : Addr) (c : FileNode),
          getNodeList (subtreeChildren cxFS cxT0.root.full_path 1) addr = some c →
          (c.expanded = true ↔ addr.length ≤ 1))) :=
  ⟨cxT0_lookup, cxT0_root_isdir, cxT0_unique,
    C2_expand_rebuilds_subtree_frame cxFS cxT0 cxRootPath cxT0.root
      cxT0_lookup cxT0_root_isdir cxT0_unique⟩

/-- Witness for C6 at a concrete failing lookup. -/
theorem C6_witness :
    dictLookup cxT0.nodes cxPath1 = none ∧
      FileTree.expand_path cxFS cxT0 cxPath1 = .error (.notFound cxPath1) := by
  have hnone : dictLookup cxT0.nodes cxPath1 = none := by
    rw [cxT0_nodes, dictLookup]
    rw [List.reverse_cons, List.reverse_nil, List.nil_append]
    rw [List.find?_cons_of_neg _ (by decide), List.find?_nil]
    rfl
  exact ⟨hnone, (C6_expand_error_conditions cxFS cxT0 cxPath1).1.mpr hnone⟩

/-! ### Claim C7: `get_changed_files` -/

theorem mem_dedupList {a : String} {xs : List String} :
    a ∈ dedupList xs ↔ a ∈ xs := by
  induction xs with
  | nil => rw [dedupList]
  | cons x xs ih =>
    rw [dedupList]
    by_cases hc : xs.contains x
    · rw [if_pos hc, ih]
      have hx : x ∈ xs := List.elem_iff.mp hc
      constructor
      · intro h
        exact List.mem_cons_of_mem _ h
      · intro h
        cases List.mem_cons.mp h with
        | inl h => rw [h]; exact hx
        | inr h => exact h
    · rw [if_neg hc, List.mem_cons, List.mem_cons, ih]

theorem nodup_dedupList (xs : List String) : (dedupList xs).Nodup := by
  induction xs with
  | nil => rw [dedupList]; exact List.nodup_nil
  | cons x xs ih =>
    rw [dedupList]
    by_cases hc : xs.contains x
    · rw [if_pos hc]
      exact ih
    · rw [if_neg hc]
      refine List.nodup_cons.mpr ⟨?_, ih⟩
      intro hmem
      rw [mem_dedupList] at hmem
      exact hc (List.elem_iff.mpr hmem)

/-- Claim C7 (amended): with both refs, or with no head and a working
`ls_files`, the result is the de-duplicated diff output (plus the
untracked files when no head is given); a repository-access or diff
failure yields an empty list; but an `ls_files` failure in the no-head
case is NOT caught — it propagates to the caller as an error. -/
theorem C7_changed_files_spec (g : GitOracle) (head b : String) :
    ((∃ r, g.repo = .error r) → get_changed_files g head b = .ok []) ∧
    (∀ u, g.repo = .ok u → head ≠ emptyStr →
      (∃ c, g.diffHeadBase head b = .error c) →
      get_changed_files g head b = .ok []) ∧
    (∀ u, g.repo = .ok u → head = emptyStr →
      (∃ c, g.diffBase b = .error c) →
      get_changed_files g head b = .ok []) ∧
    (∀ u d, g.repo = .ok u → head ≠ emptyStr → g.diffHeadBase head b = .ok d →
      get_changed_files g head b = .ok (dedupList (splitlines d)) ∧
      (dedupList (splitlines d)).Nodup ∧
      (∀ x, x ∈ dedupList (splitlines d) ↔ x ∈ splitlines d)) ∧
    (∀ u d t, g.repo = .ok u → head = emptyStr → g.diffBase b = .ok d →
      g.lsFilesOthers = .ok t →
      get_changed_files g head b
        = .ok (dedupList (splitlines d ++ splitlines t)) ∧
      (dedupList (splitlines d ++ splitlines t)).Nodup ∧
      (∀ x, x ∈ dedupList (splitlines d ++ splitlines t) ↔
        (x ∈ splitlines d ∨ x ∈ splitlines t))) ∧
    (∀ u d c, g.repo = .ok u → head = emptyStr → g.diffBase b = .ok d →
      g.lsFilesOthers = .error c →
      get_changed_files g head b = .error c) := by
  refine ⟨?_, ?_, ?_, ?_, ?_, ?_⟩
  · intro ⟨r, hr⟩
    unfold get_changed_files
    simp only [hr]
  · intro u hr hne ⟨c, hd⟩
    unfold get_changed_files
    simp only [hr, if_pos hne, hd]
  · intro u hr he ⟨c, hd⟩
    subst he
    unfold get_changed_files
    simp only [hr]
    rw [if_neg (fun h => h rfl)]
    simp only [hd]
  · intro u d hr hne hd
    refine ⟨?_, nodup_dedupList _, fun x => mem_dedupList⟩
    unfold get_changed_files
    simp only [hr, if_pos hne, hd]
    rw [if_neg hne]
  · intro u d t hr he hd ht
    refine ⟨?_, nodup_dedupList _, ?_⟩
    · subst he
      unfold get_changed_files
      simp only [hr]
      rw [if_neg (fun h => h rfl)]
      simp only [hd, if_true]
      simp only [ht]
    · intro x
      rw [mem_dedupList, List.mem_append]
  · intro u d c hr he hd hc
    subst he
    unfold get_changed_files
    simp only [hr]
    rw [if_neg (fun h => h rfl)]
    simp only [hd, if_true]
    simp only [hc]

/-- A git boundary where the repository and diff work but `ls_files`
fails. -/
def cxGitLs : GitOracle :=
  { repo := .ok (), diffHeadBase := fun _ _ => .ok emptyStr,
    diffBase := fun _ => .ok emptyStr,
    lsFilesOthers := .error (.mk "ls-files failed") }

/-- Counterexample to claim C7 as stated: the `ls_files` call sits outside
the `try` block, so its failure is an exception to the caller, not an
empty list. -/
theorem C7_counterexample :
    get_changed_files cxGitLs emptyStr mainStr
      = .error (.mk "ls-files failed") := by
  unfold get_changed_files
  simp [cxGitLs]

/-- A git boundary where every subprocess call succeeds. -/
def cxGitOk : GitOracle :=
  { repo := .ok (), diffHeadBase := fun _ _ => .ok emptyStr,
    diffBase := fun _ => .ok emptyStr, lsFilesOthers := .ok emptyStr }

/-- Witness for the amended C7 in the two-refs case. -/
theorem C7_witness :
    cxGitOk.repo = .ok () ∧ mainStr ≠ emptyStr ∧
      cxGitOk.diffHeadBase mainStr mainStr = .ok emptyStr ∧
      (get_changed_files cxGitOk mainStr mainStr
          = .ok (dedupList (splitlines emptyStr)) ∧
        (dedupList (splitlines emptyStr)).Nodup ∧
        (∀ x, x ∈ dedupList (splitlines emptyStr) ↔ x ∈ splitlines emptyStr)) :=
  ⟨rfl, by decide, rfl,
    (C7_changed_files_spec cxGitOk mainStr mainStr).2.2.2.1 () emptyStr
      rfl (by decide) rfl⟩

end Tach

deriving instance DecidableEq for Except
